import Mathlib

/-!
Shallow embedding of the mesh-packing pipeline implemented in
`src/wasm/bindings_common.cc` (`MeshWrapper::isVisuallySame`,
`MeshWrapper::getProcessedMeshData`, helper `mkUInt64`).

Modelling conventions:
* C++ `uint32_t` / `size_t` values are modelled as `Nat`; where overflow or
  bit-level behaviour matters (`>> 16`, the 64-bit composite key) the shifts
  are explicit on `Nat` (`>>> 16` is `/ 2 ^ 16`, `<<< 32` is `* 2 ^ 32`).
* `float` fields are only ever copied and compared with exact `==` by the
  code under study (no arithmetic), so they are modelled by `Int`, which has
  the same decidable exact equality structure.
* `std::vector` becomes `List`; `std::map` / `std::unordered_map` become
  association lists (`List (Nat × Nat)`), looked up with `List.lookup`;
  both containers keep at most one binding per key in the source, so the
  association-list model is observationally identical.
* Reads `v[i]` that the source performs only under a bounds guard are
  modelled with `List.getD`; a separate `Except`-instrumented copy of the
  pipeline (suffix `E`) makes every single indexing operation strict and is
  proved to return `Except.ok` of the plain model on every input.
-/

set_option maxHeartbeats 1000000

namespace ZenKit

/-- 2-component vector (`zenkit::Vec2`); float components modelled as `Int`. -/
structure Vec2 where
  x : Int
  y : Int
  deriving DecidableEq, Repr, Inhabited

/-- 3-component vector (`zenkit::Vec3`); float components modelled as `Int`. -/
structure Vec3 where
  x : Int
  y : Int
  z : Int
  deriving DecidableEq, Repr, Inhabited

/-- RGBA colour with `uint8` channels (`zenkit::Color`). -/
structure Color where
  r : Nat
  g : Nat
  b : Nat
  a : Nat
  deriving DecidableEq, Repr, Inhabited

/-- Per-corner vertex attributes (`zenkit::VertexFeature`). -/
structure VertexFeature where
  texture : Vec2
  light : Nat
  normal : Vec3
  deriving DecidableEq, Repr, Inhabited

/-- Material record (`zenkit::Material`), restricted to the fields the
packing stage reads.  Enumeration fields are modelled as `Nat`, float fields
as `Int` (exact equality only), strings as `String`. -/
structure Material where
  name : String
  group : Nat
  color : Color
  smooth_angle : Int
  texture : String
  texture_scale : Vec2
  texture_anim_fps : Int
  texture_anim_map_mode : Nat
  texture_anim_map_dir : Vec2
  detail_object : Bool
  detail_object_scale : Int
  force_occluder : Bool
  environment_mapping : Bool
  environment_mapping_strength : Int
  wave_mode : Nat
  wave_speed : Nat
  wave_max_amplitude : Int
  wave_grid_size : Int
  ignore_sun : Bool
  default_mapping : Vec2
  deriving DecidableEq, Repr, Inhabited

/-- Reduced material record copied into the output
(`zenkit::wasm::MaterialData`): name, group cast to `uint8`, texture. -/
structure MaterialData where
  name : String
  group : Nat
  texture : String
  deriving DecidableEq, Repr, Inhabited

/-- `MaterialData`'s converting constructor: the group enum is cast to
`uint8_t` (`static_cast<uint8_t>(material.group)`). -/
def toMaterialData (m : Material) : MaterialData :=
  { name := m.name, group := m.group % 256, texture := m.texture }

/-- The polygon index streams of `zenkit::Mesh::polygons`. -/
structure PolygonList where
  vertex_indices : List Nat
  feature_indices : List Nat
  material_indices : List Nat
  deriving DecidableEq, Repr, Inhabited

/-- The part of `zenkit::Mesh` read by `getProcessedMeshData`. -/
structure Mesh where
  vertices : List Vec3
  features : List VertexFeature
  materials : List Material
  polygons : PolygonList
  deriving DecidableEq, Repr, Inhabited

/-- Output record (`zenkit::wasm::ProcessedMeshData`). -/
structure ProcessedMeshData where
  vertices : List Int := []
  indices : List Nat := []
  materialIds : List Nat := []
  materials : List MaterialData := []
  deriving DecidableEq, Repr, Inhabited

/-- Composite 64-bit vertex key (`mkUInt64`): `(uint64(a) << 32) | uint64(b)`. -/
def mkUInt64 (a b : Nat) : Nat :=
  (a <<< 32) ||| b

/-- `MeshWrapper::isVisuallySame`: field-for-field equality on every field the
C++ comparison chain mentions (the material `name` is *not* compared). -/
def isVisuallySame (a b : Material) : Bool :=
  a.group == b.group &&
  a.color.r == b.color.r &&
  a.color.g == b.color.g &&
  a.color.b == b.color.b &&
  a.color.a == b.color.a &&
  a.smooth_angle == b.smooth_angle &&
  a.texture == b.texture &&
  a.texture_scale.x == b.texture_scale.x &&
  a.texture_scale.y == b.texture_scale.y &&
  a.texture_anim_fps == b.texture_anim_fps &&
  a.texture_anim_map_mode == b.texture_anim_map_mode &&
  a.texture_anim_map_dir.x == b.texture_anim_map_dir.x &&
  a.texture_anim_map_dir.y == b.texture_anim_map_dir.y &&
  a.detail_object == b.detail_object &&
  a.detail_object_scale == b.detail_object_scale &&
  a.force_occluder == b.force_occluder &&
  a.environment_mapping == b.environment_mapping &&
  a.environment_mapping_strength == b.environment_mapping_strength &&
  a.wave_mode == b.wave_mode &&
  a.wave_speed == b.wave_speed &&
  a.wave_max_amplitude == b.wave_max_amplitude &&
  a.wave_grid_size == b.wave_grid_size &&
  a.ignore_sun == b.ignore_sun &&
  a.default_mapping.x == b.default_mapping.x &&
  a.default_mapping.y == b.default_mapping.y

/-- The tuple of fields `isVisuallySame` compares. -/
def visKey (m : Material) : Nat × Nat × Nat × Nat × Nat × Int × String ×
    Int × Int × Int × Nat × Int × Int × Bool × Int × Bool × Bool × Int ×
    Nat × Nat × Int × Int × Bool × Int × Int :=
  (m.group, m.color.r, m.color.g, m.color.b, m.color.a, m.smooth_angle,
   m.texture, m.texture_scale.x, m.texture_scale.y, m.texture_anim_fps,
   m.texture_anim_map_mode, m.texture_anim_map_dir.x,
   m.texture_anim_map_dir.y, m.detail_object, m.detail_object_scale,
   m.force_occluder, m.environment_mapping, m.environment_mapping_strength,
   m.wave_mode, m.wave_speed, m.wave_max_amplitude, m.wave_grid_size,
   m.ignore_sun, m.default_mapping.x, m.default_mapping.y)

theorem isVisuallySame_iff (a b : Material) :
    isVisuallySame a b = true ↔ visKey a = visKey b := by
  simp [isVisuallySame, visKey, Prod.ext_iff, and_assoc]

theorem isVisuallySame_refl (a : Material) : isVisuallySame a a = true := by
  simp [isVisuallySame_iff]

theorem isVisuallySame_symm {a b : Material}
    (h : isVisuallySame a b = true) : isVisuallySame b a = true := by
  rw [isVisuallySame_iff] at h ⊢
  exact h.symm

theorem isVisuallySame_trans {a b c : Material}
    (h₁ : isVisuallySame a b = true) (h₂ : isVisuallySame b c = true) :
    isVisuallySame a c = true := by
  rw [isVisuallySame_iff] at h₁ h₂ ⊢
  exact h₁.trans h₂

/-! ### Material deduplication (`getProcessedMeshData`, step 1)

The source initialises `mat[i] = i` and then runs
`for i in [0, N): for r in (i, N): if mat[i] != mat[r] && isVisuallySame(materials[i], materials[r]) then mat[r] = mat[i]`. -/

/-- One iteration of the inner deduplication loop, at pair `(i, r)`. -/
def dedupBody (ms : List Material) (i : Nat) (mat : List Nat) (r : Nat) :
    List Nat :=
  if mat.getD i 0 = mat.getD r 0 then mat
  else if isVisuallySame (ms.getD i default) (ms.getD r default) then
    mat.set r (mat.getD i 0)
  else mat

/-- The inner loop `for (size_t r = i + 1; r < N; ++r)`. -/
def dedupInner (ms : List Material) (mat : List Nat) (i : Nat) : List Nat :=
  (List.range' (i + 1) (ms.length - (i + 1))).foldl (dedupBody ms i) mat

/-- The whole deduplication pass: identity table, then the nested loops. -/
def dedupTable (ms : List Material) : List Nat :=
  (List.range ms.length).foldl (dedupInner ms) (List.range ms.length)

theorem getD_set_self {l : List Nat} {n v : Nat} (h : n < l.length) :
    (l.set n v).getD n 0 = v := by
  simp [h]

theorem getD_set_ne {l : List Nat} {n j v : Nat} (h : n ≠ j) :
    (l.set n v).getD j 0 = l.getD j 0 := by
  simp [List.getElem?_set_ne h]

theorem length_dedupBody (ms : List Material) (i : Nat) (mat : List Nat)
    (r : Nat) : (dedupBody ms i mat r).length = mat.length := by
  unfold dedupBody
  split <;> [rfl; skip]
  split <;> simp

theorem dedupBody_getD_ne (ms : List Material) (i : Nat) (mat : List Nat)
    {r j : Nat} (h : j ≠ r) :
    (dedupBody ms i mat r).getD j 0 = mat.getD j 0 := by
  unfold dedupBody
  split <;> [rfl; skip]
  split <;> simp [List.getElem?_set_ne (Ne.symm h)]

/-- The value the inner loop leaves at position `r`, in terms of the table
before that iteration. -/
def innerVal (ms : List Material) (i : Nat) (mat : List Nat) (r : Nat) : Nat :=
  if mat.getD i 0 = mat.getD r 0 then mat.getD r 0
  else if isVisuallySame (ms.getD i default) (ms.getD r default) then
    mat.getD i 0
  else mat.getD r 0

theorem innerVal_congr {ms : List Material} {i : Nat} {mat mat' : List Nat}
    {r : Nat} (h1 : mat'.getD i 0 = mat.getD i 0)
    (h2 : mat'.getD r 0 = mat.getD r 0) :
    innerVal ms i mat' r = innerVal ms i mat r := by
  unfold innerVal
  rw [h1, h2]

theorem dedupBody_getD_self (ms : List Material) (i : Nat) {mat : List Nat}
    {r : Nat} (h : r < mat.length) :
    (dedupBody ms i mat r).getD r 0 = innerVal ms i mat r := by
  unfold dedupBody innerVal
  split <;> [rfl; skip]
  split <;> simp [List.getElem?_set_self h]

theorem dedupBody_getD_oob (ms : List Material) (i : Nat) {mat : List Nat}
    {r : Nat} (h : mat.length ≤ r) :
    (dedupBody ms i mat r).getD r 0 = mat.getD r 0 := by
  unfold dedupBody
  split <;> [rfl; skip]
  split <;> simp [List.set_eq_of_length_le h]

theorem dedupInner_aux (ms : List Material) (i : Nat) :
    ∀ (m s : Nat) (mat : List Nat), i < s → ∀ j,
      ((List.range' s m).foldl (dedupBody ms i) mat).getD j 0 =
        if s ≤ j ∧ j < s + m ∧ j < mat.length then innerVal ms i mat j
        else mat.getD j 0 := by
  intro m
  induction m with
  | zero =>
    intro s mat _ j
    have hc : ¬(s ≤ j ∧ j < s + 0 ∧ j < mat.length) := by omega
    simp only [List.range', List.foldl_nil]
    rw [if_neg hc]
  | succ m ih =>
    intro s mat hs j
    rw [List.range'_succ, List.foldl_cons,
      ih (s + 1) (dedupBody ms i mat s) (by omega) j, length_dedupBody]
    by_cases hjs : j = s
    · subst hjs
      have h1 : ¬(j + 1 ≤ j ∧ j < j + 1 + m ∧ j < mat.length) := by omega
      rw [if_neg h1]
      by_cases h2 : j < mat.length
      · rw [dedupBody_getD_self ms i h2,
          if_pos ⟨le_rfl, by omega, h2⟩]
      · have h3 : ¬(j ≤ j ∧ j < j + (m + 1) ∧ j < mat.length) := by omega
        rw [if_neg h3, dedupBody_getD_oob ms i (by omega)]
    · have hcond : (s + 1 ≤ j ∧ j < s + 1 + m ∧ j < mat.length) ↔
          (s ≤ j ∧ j < s + (m + 1) ∧ j < mat.length) := by omega
      by_cases hc : s ≤ j ∧ j < s + (m + 1) ∧ j < mat.length
      · rw [if_pos (hcond.mpr hc), if_pos hc]
        exact innerVal_congr (dedupBody_getD_ne ms i mat (by omega))
          (dedupBody_getD_ne ms i mat hjs)
      · rw [if_neg (fun h => hc (hcond.mp h)), if_neg hc]
        exact dedupBody_getD_ne ms i mat hjs

theorem length_foldl_dedupBody (ms : List Material) (i : Nat) :
    ∀ (L : List Nat) (mat : List Nat),
      (L.foldl (dedupBody ms i) mat).length = mat.length := by
  intro L
  induction L with
  | nil => intro mat; rfl
  | cons r L ih => intro mat; rw [List.foldl_cons, ih, length_dedupBody]

theorem length_dedupInner (ms : List Material) (mat : List Nat) (i : Nat) :
    (dedupInner ms mat i).length = mat.length :=
  length_foldl_dedupBody ms i _ mat

theorem dedupInner_getD (ms : List Material) {mat : List Nat} (i : Nat)
    (hlen : mat.length = ms.length) (j : Nat) :
    (dedupInner ms mat i).getD j 0 =
      if i < j ∧ j < ms.length then innerVal ms i mat j
      else mat.getD j 0 := by
  rw [dedupInner, dedupInner_aux ms i _ (i + 1) mat (by omega) j]
  have hcond : (i + 1 ≤ j ∧ j < i + 1 + (ms.length - (i + 1)) ∧
      j < mat.length) ↔ (i < j ∧ j < ms.length) := by omega
  by_cases hc : i < j ∧ j < ms.length
  · rw [if_pos (hcond.mpr hc), if_pos hc]
  · rw [if_neg (fun h => hc (hcond.mp h)), if_neg hc]

/-- Index of the first material in the list that is visually the same as the
target; the list's length when there is none. -/
def findSame (t : Material) : List Material → Nat
  | [] => 0
  | m :: rest => if isVisuallySame m t then 0 else findSame t rest + 1

/-- The representative the deduplication pass assigns to index `j`: the least
index whose material is visually the same as material `j`. -/
def classRep (ms : List Material) (j : Nat) : Nat :=
  findSame (ms.getD j default) ms

theorem findSame_le {t : Material} :
    ∀ {l : List Material} {n : Nat}, n < l.length →
      isVisuallySame (l.getD n default) t = true → findSame t l ≤ n := by
  intro l
  induction l with
  | nil => intro n hn; simp at hn
  | cons m rest ih =>
    intro n hn h
    match n with
    | 0 =>
      simp only [List.getD_cons_zero] at h
      simp [findSame, h]
    | n + 1 =>
      simp only [List.getD_cons_succ] at h
      unfold findSame
      split
      · omega
      · have := ih (by simpa using hn) h
        omega

theorem findSame_same {t : Material} :
    ∀ {l : List Material}, findSame t l < l.length →
      isVisuallySame (l.getD (findSame t l) default) t = true := by
  intro l
  induction l with
  | nil => intro h; simp [findSame] at h
  | cons m rest ih =>
    intro h
    unfold findSame at h ⊢
    by_cases hm : isVisuallySame m t = true
    · simp [hm]
    · rw [if_neg hm] at h ⊢
      simp only [List.getD_cons_succ]
      exact ih (by simp at h; omega)

theorem findSame_min {t : Material} :
    ∀ {l : List Material} {k : Nat}, k < findSame t l →
      isVisuallySame (l.getD k default) t = false := by
  intro l
  induction l with
  | nil => intro k h; simp [findSame] at h
  | cons m rest ih =>
    intro k h
    unfold findSame at h
    by_cases hm : isVisuallySame m t = true
    · rw [if_pos hm] at h; omega
    · rw [if_neg hm] at h
      match k with
      | 0 => simpa using Bool.eq_false_iff.mpr hm
      | k + 1 =>
        simp only [List.getD_cons_succ]
        exact ih (by omega)

theorem classRep_le {ms : List Material} {j : Nat} (hj : j < ms.length) :
    classRep ms j ≤ j :=
  findSame_le hj (isVisuallySame_refl _)

theorem classRep_lt {ms : List Material} {j : Nat} (hj : j < ms.length) :
    classRep ms j < ms.length :=
  lt_of_le_of_lt (classRep_le hj) hj

theorem classRep_same {ms : List Material} {j : Nat} (hj : j < ms.length) :
    isVisuallySame (ms.getD (classRep ms j) default) (ms.getD j default)
      = true :=
  findSame_same (classRep_lt hj)

theorem classRep_eq_of_same {ms : List Material} {i j : Nat}
    (hi : i < ms.length) (hj : j < ms.length)
    (h : isVisuallySame (ms.getD i default) (ms.getD j default) = true) :
    classRep ms i = classRep ms j := by
  apply le_antisymm
  · exact findSame_le (classRep_lt hj)
      (isVisuallySame_trans (classRep_same hj) (isVisuallySame_symm h))
  · exact findSame_le (classRep_lt hi)
      (isVisuallySame_trans (classRep_same hi) h)

theorem classRep_idem {ms : List Material} {j : Nat} (hj : j < ms.length) :
    classRep ms (classRep ms j) = classRep ms j :=
  classRep_eq_of_same (classRep_lt hj) hj (classRep_same hj)

theorem classRep_not_same_of_lt {ms : List Material} {j k : Nat}
    (hk : k < classRep ms j) :
    isVisuallySame (ms.getD k default) (ms.getD j default) = false :=
  findSame_min hk

/-- Loop invariant of the outer deduplication loop: after the first `k` outer
iterations, entry `j` holds its class representative as soon as that
representative is `< k`, and still holds `j` otherwise. -/
theorem dedupLoop_getD (ms : List Material) :
    ∀ k : Nat, k ≤ ms.length →
      ((List.range k).foldl (dedupInner ms) (List.range ms.length)).length
          = ms.length ∧
      ∀ j, j < ms.length →
        ((List.range k).foldl (dedupInner ms) (List.range ms.length)).getD j 0
          = if classRep ms j < k then classRep ms j else j := by
  intro k
  induction k with
  | zero =>
    intro _
    refine ⟨by simp, ?_⟩
    intro j hj
    simp [List.getElem?_range hj]
  | succ k ih =>
    intro hk
    obtain ⟨hlen, hval⟩ := ih (by omega)
    rw [List.range_succ, List.foldl_append]
    constructor
    · rw [List.foldl_cons, List.foldl_nil, length_dedupInner, hlen]
    intro j hj
    rw [List.foldl_cons, List.foldl_nil,
      dedupInner_getD ms k hlen j]
    have hμj_le : classRep ms j ≤ j := classRep_le hj
    by_cases hc : k < j ∧ j < ms.length
    · have hkm : k < ms.length := by omega
      have hμk : ((List.range k).foldl (dedupInner ms)
          (List.range ms.length)).getD k 0 = classRep ms k := by
        rw [hval k hkm]
        have := classRep_le hkm
        split <;> omega
      rw [if_pos hc]
      unfold innerVal
      rw [hμk, hval j hj]
      by_cases hsame :
          isVisuallySame (ms.getD k default) (ms.getD j default) = true
      · have heq : classRep ms k = classRep ms j :=
          classRep_eq_of_same hkm hj hsame
        have hμk_le : classRep ms k ≤ k := classRep_le hkm
        rw [if_pos hsame]
        split_ifs <;> omega
      · have hne : classRep ms j ≠ k := by
          intro he
          rw [← he] at hsame
          exact hsame (classRep_same hj)
        rw [if_neg (fun h => hsame h), ite_self]
        split <;> split <;> omega
    · rw [if_neg hc, hval j hj]
      have hjk : j ≤ k := by omega
      split <;> split <;> omega

theorem dedupTable_length (ms : List Material) :
    (dedupTable ms).length = ms.length :=
  (dedupLoop_getD ms ms.length le_rfl).1

/-- The deduplication table maps every index to the least index of a visually
identical material. -/
theorem dedupTable_getD (ms : List Material) (j : Nat) (hj : j < ms.length) :
    (dedupTable ms).getD j 0 = classRep ms j := by
  have h := (dedupLoop_getD ms ms.length le_rfl).2 j hj
  rw [dedupTable, h, if_pos (classRep_lt hj)]

theorem dedupTable_le (ms : List Material) {i : Nat} (hi : i < ms.length) :
    (dedupTable ms).getD i 0 ≤ i := by
  rw [dedupTable_getD ms i hi]
  exact classRep_le hi

theorem dedupTable_idem (ms : List Material) {i : Nat} (hi : i < ms.length) :
    (dedupTable ms).getD ((dedupTable ms).getD i 0) 0
      = (dedupTable ms).getD i 0 := by
  rw [dedupTable_getD ms i hi,
    dedupTable_getD ms (classRep ms i) (classRep_lt hi)]
  exact classRep_idem hi

/-! ### Material compaction (`getProcessedMeshData`, building
`matIdxRemap` and `result.materials`) -/

/-- One iteration of the compaction loop (lines 159–166): look the
deduplicated index up in `matIdxRemap`; if absent, bind it to the next
output slot and append the material (as `MaterialData`). -/
def remapStep (ms : List Material) (mat : List Nat)
    (st : List (Nat × Nat) × List MaterialData) (i : Nat) :
    List (Nat × Nat) × List MaterialData :=
  match st.1.lookup (mat.getD i 0) with
  | some _ => st
  | none =>
    (st.1 ++ [(mat.getD i 0, st.2.length)],
     st.2 ++ [toMaterialData (ms.getD (mat.getD i 0) default)])

/-- The compaction loop over all original material indices. -/
def buildRemap (ms : List Material) (mat : List Nat) :
    List (Nat × Nat) × List MaterialData :=
  (List.range ms.length).foldl (remapStep ms mat) ([], [])

/-- The fixed points of the class table below `n`, in increasing order:
exactly the representatives, in order of first appearance. -/
def repList (mat : List Nat) (n : Nat) : List Nat :=
  (List.range n).filter (fun v => mat.getD v 0 == v)

/-- Output position assigned to representative `d`: the number of
representatives below it. -/
def repIdx (mat : List Nat) (d : Nat) : Nat :=
  (repList mat d).length

theorem remapStep_found {ms : List Material} {mat : List Nat}
    {st : List (Nat × Nat) × List MaterialData} {i v : Nat}
    (h : st.1.lookup (mat.getD i 0) = some v) :
    remapStep ms mat st i = st := by
  unfold remapStep
  rw [h]

theorem remapStep_notfound {ms : List Material} {mat : List Nat}
    {st : List (Nat × Nat) × List MaterialData} {i : Nat}
    (h : st.1.lookup (mat.getD i 0) = none) :
    remapStep ms mat st i =
      (st.1 ++ [(mat.getD i 0, st.2.length)],
       st.2 ++ [toMaterialData (ms.getD (mat.getD i 0) default)]) := by
  unfold remapStep
  rw [h]

theorem lookup_append (l₁ l₂ : List (Nat × Nat)) (k : Nat) :
    (l₁ ++ l₂).lookup k = ((l₁.lookup k).orElse fun _ => l₂.lookup k) := by
  induction l₁ with
  | nil => simp
  | cons e l ih =>
    obtain ⟨a, b⟩ := e
    cases h : k == a <;> simp [List.lookup_cons, h, ih]

theorem lookup_singleton (k k₀ v : Nat) :
    List.lookup k [(k₀, v)] = if k = k₀ then some v else none := by
  by_cases h : k = k₀
  · subst h
    simp
  · have hb : (k == k₀) = false := by
      cases hx : k == k₀
      · rfl
      · exact absurd (eq_of_beq hx) h
    rw [if_neg h, List.lookup_cons, hb]
    rfl

theorem filter_single_rep (mat : List Nat) (n : Nat) :
    List.filter (fun v => mat.getD v 0 == v) [n] =
      if mat.getD n 0 = n then [n] else [] := by
  by_cases h : mat.getD n 0 = n
  · have hb : (mat.getD n 0 == n) = true := by
      rw [h]
      exact beq_self_eq_true n
    simp only [List.filter_cons, List.filter_nil]
    rw [hb, if_pos rfl, if_pos h]
  · have hb : (mat.getD n 0 == n) = false := by
      cases hx : mat.getD n 0 == n
      · rfl
      · exact absurd (eq_of_beq hx) h
    simp only [List.filter_cons, List.filter_nil]
    rw [hb, if_neg (by simp), if_neg h]

theorem repList_succ (mat : List Nat) (n : Nat) :
    repList mat (n + 1) =
      repList mat n ++ if mat.getD n 0 = n then [n] else [] := by
  rw [repList, repList, List.range_succ, List.filter_append, filter_single_rep]

theorem repList_length_mono (mat : List Nat) {m n : Nat} (h : m ≤ n) :
    (repList mat m).length ≤ (repList mat n).length := by
  revert h
  induction n with
  | zero =>
    intro h
    have hm : m = 0 := by omega
    subst hm
    exact le_rfl
  | succ n ih =>
    intro h
    rcases Nat.lt_or_ge m (n + 1) with h2 | h2
    · have h3 := ih (by omega)
      rw [repList_succ, List.length_append]
      omega
    · have hm : m = n + 1 := by omega
      subst hm
      exact le_rfl

theorem repIdx_lt_length {mat : List Nat} {d n : Nat} (hd : d < n)
    (hrep : mat.getD d 0 = d) :
    repIdx mat d < (repList mat n).length := by
  have h1 : (repList mat (d + 1)).length = repIdx mat d + 1 := by
    rw [repList_succ, if_pos hrep, List.length_append]
    rfl
  have h2 := repList_length_mono mat (show d + 1 ≤ n by omega)
  omega

theorem mem_repList {mat : List Nat} {v n : Nat} :
    v ∈ repList mat n ↔ v < n ∧ mat.getD v 0 = v := by
  simp [repList, List.mem_filter, List.mem_range, and_comm]

/-- Invariant of the compaction loop after `k` iterations: the output list
holds the representatives seen so far (in order), and the remap table binds
exactly the representatives `< k`, each to its output position. -/
theorem buildRemap_loop (ms : List Material) (mat : List Nat)
    (hle : ∀ i, i < ms.length → mat.getD i 0 ≤ i)
    (hid : ∀ i, i < ms.length →
      mat.getD (mat.getD i 0) 0 = mat.getD i 0) :
    ∀ k, k ≤ ms.length →
      (((List.range k).foldl (remapStep ms mat) ([], [])).2 =
        (repList mat k).map fun v => toMaterialData (ms.getD v default)) ∧
      ∀ d, ((List.range k).foldl (remapStep ms mat) ([], [])).1.lookup d =
        if mat.getD d 0 = d ∧ d < k then some (repIdx mat d) else none := by
  intro k
  induction k with
  | zero =>
    intro _
    refine ⟨by simp [repList], ?_⟩
    intro d
    simp
  | succ k ih =>
    intro hk
    obtain ⟨hmats, hlook⟩ := ih (by omega)
    rw [List.range_succ, List.foldl_append, List.foldl_cons, List.foldl_nil]
    have hdk : mat.getD k 0 ≤ k := hle k (by omega)
    have hdd : mat.getD (mat.getD k 0) 0 = mat.getD k 0 := hid k (by omega)
    by_cases hlt : mat.getD k 0 < k
    · -- representative already recorded: the step is a no-op
      have hfound : ((List.range k).foldl (remapStep ms mat)
          ([], [])).1.lookup (mat.getD k 0)
            = some (repIdx mat (mat.getD k 0)) := by
        rw [hlook]
        exact if_pos ⟨hdd, hlt⟩
      rw [remapStep_found hfound]
      constructor
      · rw [hmats, repList_succ, if_neg (by omega), List.append_nil]
      · intro d
        rw [hlook]
        by_cases hcond : mat.getD d 0 = d ∧ d < k
        · rw [if_pos hcond, if_pos ⟨hcond.1, by omega⟩]
        · rw [if_neg hcond, if_neg ?_]
          rintro ⟨h1, h2⟩
          rcases Nat.lt_or_ge d k with h3 | h3
          · exact hcond ⟨h1, h3⟩
          · have hdk2 : d = k := by omega
            subst hdk2
            omega
    · -- new representative: `mat[k] = k`, bind it to the next slot
      have hrep : mat.getD k 0 = k := by omega
      have hnotfound : ((List.range k).foldl (remapStep ms mat)
          ([], [])).1.lookup (mat.getD k 0) = none := by
        rw [hlook]
        exact if_neg (by omega)
      rw [remapStep_notfound hnotfound]
      have hlen2 : ((List.range k).foldl (remapStep ms mat)
          ([], [])).2.length = repIdx mat k := by
        rw [hmats, List.length_map]
        rfl
      constructor
      · rw [hmats, repList_succ, if_pos hrep, List.map_append, hrep]
        simp
      · intro d
        rw [lookup_append, hlook, hrep, hlen2]
        by_cases hcond : mat.getD d 0 = d ∧ d < k
        · rw [if_pos hcond, if_pos ⟨hcond.1, by omega⟩]
          rfl
        · rw [if_neg hcond]
          by_cases hdk2 : d = k
          · subst hdk2
            rw [if_pos ⟨hrep, by omega⟩]
            simp [lookup_singleton]
          · rw [lookup_singleton, if_neg hdk2, if_neg ?_]
            · rfl
            · rintro ⟨h1, h2⟩
              exact hcond ⟨h1, by omega⟩

theorem buildRemap_snd (ms : List Material) (mat : List Nat)
    (hle : ∀ i, i < ms.length → mat.getD i 0 ≤ i)
    (hid : ∀ i, i < ms.length →
      mat.getD (mat.getD i 0) 0 = mat.getD i 0) :
    (buildRemap ms mat).2 =
      (repList mat ms.length).map fun v =>
        toMaterialData (ms.getD v default) :=
  (buildRemap_loop ms mat hle hid ms.length le_rfl).1

theorem buildRemap_lookup (ms : List Material) (mat : List Nat)
    (hle : ∀ i, i < ms.length → mat.getD i 0 ≤ i)
    (hid : ∀ i, i < ms.length →
      mat.getD (mat.getD i 0) 0 = mat.getD i 0) (d : Nat) :
    (buildRemap ms mat).1.lookup d =
      if mat.getD d 0 = d ∧ d < ms.length then some (repIdx mat d)
      else none :=
  (buildRemap_loop ms mat hle hid ms.length le_rfl).2 d


/-! ### Triangle collection, sorting and vertex welding
(`getProcessedMeshData`, steps 2–4) -/

/-- Triangle record (`struct Triangle` in the source): base corner offset
`primId = 3 * i` and deduplicated material id. -/
structure Triangle where
  primId : Nat
  matId : Nat
  deriving DecidableEq, Repr, Inhabited

/-- Step 2 (lines 178–187): one record per entry of the material-index
stream whose raw material index is in bounds; the id is
`matIdxRemap[mat[originalMatIdx]]` (present keys only; a miss would read the
value-initialised `0`, modelled by `getD 0`). -/
def collectTriangles (mid mat : List Nat) (remap : List (Nat × Nat)) :
    List Triangle :=
  (List.range mid.length).filterMap fun i =>
    if mid.getD i 0 < mat.length then
      some ⟨i * 3, (remap.lookup (mat.getD (mid.getD i 0) 0)).getD 0⟩
    else
      none

/-- Insertion of one triangle into a list sorted by `matId`. -/
def insertTri (t : Triangle) : List Triangle → List Triangle
  | [] => [t]
  | u :: us => if t.matId ≤ u.matId then t :: u :: us else u :: insertTri t us

/-- Step 3 (lines 190–192): `std::sort` by `matId <`.  `std::sort` promises
some permutation of the input that is non-decreasing under the comparator
(ties in unspecified order); the model picks insertion sort, one valid
implementation of that contract. -/
def sortTriangles (ts : List Triangle) : List Triangle :=
  ts.foldr insertTri []

/-- Per-corner index resolution (lines 214–228): legacy `>> 16` correction
when the feature index is out of range, then fallback of both indices to 0
when either is still out of range. -/
def resolvePair (vertexCount featureCount vi fi : Nat) : Nat × Nat :=
  let fi2 := if fi ≥ featureCount then fi >>> 16 else fi
  if vi ≥ vertexCount ∨ fi2 ≥ featureCount then (0, 0) else (vi, fi2)

/-- Resolution of the corner at stream position `idx`. -/
def resolveCorner (mesh : Mesh) (idx : Nat) : Nat × Nat :=
  resolvePair mesh.vertices.length mesh.features.length
    (mesh.polygons.vertex_indices.getD idx 0)
    (mesh.polygons.feature_indices.getD idx 0)

/-- The 8 floats pushed for a newly created vertex (lines 244–269),
including the write-time defensive bounds checks. -/
def vertexData (mesh : Mesh) (vi fi : Nat) : List Int :=
  (if vi < mesh.vertices.length then
    [(mesh.vertices.getD vi default).x,
     (mesh.vertices.getD vi default).y,
     (mesh.vertices.getD vi default).z]
  else [0, 0, 0]) ++
  (if fi < mesh.features.length then
    [(mesh.features.getD fi default).normal.x,
     (mesh.features.getD fi default).normal.y,
     (mesh.features.getD fi default).normal.z,
     (mesh.features.getD fi default).texture.x,
     (mesh.features.getD fi default).texture.y]
  else [0, 0, 1, 0, 0])

/-- Mutable state of the welding loop: the composite-key cache plus the
three output buffers it fills. -/
structure WeldState where
  vertexMap : List (Nat × Nat) := []
  vertices : List Int := []
  indices : List Nat := []
  materialIds : List Nat := []
  deriving DecidableEq, Repr, Inhabited

/-- The corner body after the stream-bounds guard (lines 214–271): resolve,
build the composite key, reuse a cached vertex or append a new one. -/
def emitCorner (mesh : Mesh) (st : WeldState) (idx : Nat) : WeldState :=
  match st.vertexMap.lookup
      (mkUInt64 (resolveCorner mesh idx).1 (resolveCorner mesh idx).2) with
  | some existingIdx => { st with indices := st.indices ++ [existingIdx] }
  | none =>
    { st with
        vertexMap := st.vertexMap ++
          [(mkUInt64 (resolveCorner mesh idx).1 (resolveCorner mesh idx).2,
            st.vertices.length / 8)],
        indices := st.indices ++ [st.vertices.length / 8],
        vertices := st.vertices ++
          vertexData mesh (resolveCorner mesh idx).1
            (resolveCorner mesh idx).2 }

/-- One corner of one triangle, including the guard
`if (tri.primId + c >= ibo.size()) continue;` (lines 208–212). -/
def processCorner (mesh : Mesh) (primId : Nat) (st : WeldState) (c : Nat) :
    WeldState :=
  if primId + c ≥ mesh.polygons.vertex_indices.length then st
  else emitCorner mesh st (primId + c)

/-- One triangle of the welding loop (lines 205–272): push the material id,
then process the three corners. -/
def processTriangle (mesh : Mesh) (st : WeldState) (tri : Triangle) :
    WeldState :=
  [0, 1, 2].foldl (processCorner mesh tri.primId)
    { st with materialIds := st.materialIds ++ [tri.matId] }

/-- The whole welding loop over the sorted triangle list. -/
def weldTriangles (mesh : Mesh) (tris : List Triangle) : WeldState :=
  tris.foldl (processTriangle mesh) {}

/-- `MeshWrapper::getProcessedMeshData` (lines 122–275). -/
def getProcessedMeshData (mesh : Mesh) : ProcessedMeshData :=
  if mesh.polygons.vertex_indices.isEmpty || mesh.materials.isEmpty then
    {} -- empty mesh
  else if mesh.polygons.vertex_indices.length ≠
      mesh.polygons.feature_indices.length then
    {} -- incompatible data
  else
    let mat := dedupTable mesh.materials
    let remap := (buildRemap mesh.materials mat).1
    let tris := sortTriangles
      (collectTriangles mesh.polygons.material_indices mat remap)
    let st := weldTriangles mesh tris
    { vertices := st.vertices, indices := st.indices,
      materialIds := st.materialIds,
      materials := (buildRemap mesh.materials mat).2 }


/-! ### Functional characterisation of the welding loop -/

/-- The three corner stream positions of one triangle. -/
def cornerOffsets (tri : Triangle) : List Nat :=
  [tri.primId, tri.primId + 1, tri.primId + 2]

/-- Stream positions of the corners the welding loop actually reads, in
processing order (the guard on line 210 skips positions `≥ ibo.length`). -/
def cornerReads (iboLen : Nat) (tris : List Triangle) : List Nat :=
  tris.flatMap fun tri => (cornerOffsets tri).filter fun idx => idx < iboLen

/-- Resolved `(positionIndex, attributeIndex)` pairs of the processed
corners, in processing order. -/
def resolvedPairs (mesh : Mesh) (tris : List Triangle) : List (Nat × Nat) :=
  (cornerReads mesh.polygons.vertex_indices.length tris).map
    (resolveCorner mesh)

/-- The distinct elements of a list, in order of first appearance. -/
def firstOccs (l : List (Nat × Nat)) : List (Nat × Nat) :=
  l.foldl (fun acc p => if p ∈ acc then acc else acc ++ [p]) []

/-- Position of the first occurrence of `p` (the list's length if absent). -/
def idxOf (p : Nat × Nat) : List (Nat × Nat) → Nat
  | [] => 0
  | q :: rest => if p = q then 0 else idxOf p rest + 1

/-- The cache entries for a list of distinct pairs, keyed by `mkUInt64` and
numbered from `start`. -/
def keyEntries (start : Nat) : List (Nat × Nat) → List (Nat × Nat)
  | [] => []
  | p :: rest => (mkUInt64 p.1 p.2, start) :: keyEntries (start + 1) rest

/-- The guard-free corner runner: welds every listed stream position. -/
def weldCorners (mesh : Mesh) (st : WeldState) (cs : List Nat) : WeldState :=
  cs.foldl (emitCorner mesh) st

theorem idxOf_append_of_mem {p : Nat × Nat} :
    ∀ {l₁ : List (Nat × Nat)} (l₂ : List (Nat × Nat)), p ∈ l₁ →
      idxOf p (l₁ ++ l₂) = idxOf p l₁ := by
  intro l₁
  induction l₁ with
  | nil => intro l₂ h; simp at h
  | cons q rest ih =>
    intro l₂ h
    rw [List.cons_append, idxOf, idxOf]
    by_cases hpq : p = q
    · rw [if_pos hpq, if_pos hpq]
    · have hrest : p ∈ rest := by
        rcases List.mem_cons.mp h with h1 | h1
        · exact absurd h1 hpq
        · exact h1
      rw [if_neg hpq, if_neg hpq, ih l₂ hrest]

theorem idxOf_append_of_not_mem {p : Nat × Nat} :
    ∀ {l₁ : List (Nat × Nat)} (l₂ : List (Nat × Nat)), p ∉ l₁ →
      idxOf p (l₁ ++ l₂) = l₁.length + idxOf p l₂ := by
  intro l₁
  induction l₁ with
  | nil => intro l₂ _; simp
  | cons q rest ih =>
    intro l₂ h
    have hpq : p ≠ q := fun he => h (he ▸ List.mem_cons_self q rest)
    rw [List.cons_append, idxOf, if_neg hpq,
      ih l₂ (fun hm => h (List.mem_cons_of_mem q hm))]
    simp only [List.length_cons]
    omega

theorem idxOf_lt_length {p : Nat × Nat} :
    ∀ {l : List (Nat × Nat)}, p ∈ l → idxOf p l < l.length := by
  intro l
  induction l with
  | nil => intro h; simp at h
  | cons q rest ih =>
    intro h
    by_cases hpq : p = q
    · simp [idxOf, hpq]
    · rw [idxOf, if_neg hpq]
      have : p ∈ rest := by
        rcases List.mem_cons.mp h with h | h
        · exact absurd h hpq
        · exact h
      simpa using ih this

theorem firstOccs_snoc (l : List (Nat × Nat)) (p : Nat × Nat) :
    firstOccs (l ++ [p]) =
      if p ∈ firstOccs l then firstOccs l else firstOccs l ++ [p] := by
  rw [firstOccs, firstOccs, List.foldl_append, List.foldl_cons, List.foldl_nil]

theorem mem_firstOccs {q : Nat × Nat} :
    ∀ {l : List (Nat × Nat)}, q ∈ firstOccs l ↔ q ∈ l := by
  intro l
  induction l using List.reverseRecOn with
  | nil => simp [firstOccs]
  | append_singleton l p ih =>
    rw [firstOccs_snoc]
    by_cases hp : p ∈ firstOccs l
    · rw [if_pos hp]
      simp only [List.mem_append, List.mem_singleton]
      constructor
      · intro h
        exact Or.inl (ih.mp h)
      · rintro (h | h)
        · exact ih.mpr h
        · exact h ▸ hp
    · rw [if_neg hp]
      simp only [List.mem_append, List.mem_singleton, ih]

theorem nodup_firstOccs : ∀ (l : List (Nat × Nat)), (firstOccs l).Nodup := by
  intro l
  induction l using List.reverseRecOn with
  | nil => simp [firstOccs]
  | append_singleton l p ih =>
    rw [firstOccs_snoc]
    by_cases hp : p ∈ firstOccs l
    · rwa [if_pos hp]
    · rw [if_neg hp]
      exact List.Nodup.append ih (List.nodup_singleton p)
        (by simpa using hp)

theorem mkUInt64_eq_add {a b : Nat} (hb : b < 2 ^ 32) :
    mkUInt64 a b = 2 ^ 32 * a + b := by
  rw [mkUInt64, Nat.shiftLeft_eq, Nat.mul_comm a, Nat.mul_add_lt_is_or hb]

theorem mkUInt64_inj {a b c d : Nat} (hb : b < 2 ^ 32) (hd : d < 2 ^ 32)
    (h : mkUInt64 a b = mkUInt64 c d) : a = c ∧ b = d := by
  rw [mkUInt64_eq_add hb, mkUInt64_eq_add hd] at h
  have h32 : (2 : Nat) ^ 32 = 4294967296 := by norm_num
  rw [h32] at h
  rw [h32] at hb hd
  omega

theorem keyEntries_snoc (start : Nat) :
    ∀ (l : List (Nat × Nat)) (p : Nat × Nat),
      keyEntries start (l ++ [p]) =
        keyEntries start l ++ [(mkUInt64 p.1 p.2, start + l.length)] := by
  intro l
  induction l generalizing start with
  | nil => intro p; simp [keyEntries]
  | cons q rest ih =>
    intro p
    rw [List.cons_append, keyEntries, keyEntries, ih (start + 1) p]
    simp [Nat.add_assoc, Nat.add_comm 1]

theorem lookup_keyEntries (p : Nat × Nat) :
    ∀ (l : List (Nat × Nat)) (start : Nat),
      (∀ q ∈ l, q.2 < 2 ^ 32) → p.2 < 2 ^ 32 →
      (keyEntries start l).lookup (mkUInt64 p.1 p.2) =
        if p ∈ l then some (start + idxOf p l) else none := by
  intro l
  induction l with
  | nil => intro start _ _; simp [keyEntries]
  | cons q rest ih =>
    intro start hb hp
    rw [keyEntries]
    by_cases hpq : p = q
    · subst hpq
      rw [List.lookup_cons, if_pos (by simp [List.mem_cons]), idxOf,
        if_pos rfl]
      simp
    · have hkey : (mkUInt64 p.1 p.2 == mkUInt64 q.1 q.2) = false := by
        cases hx : mkUInt64 p.1 p.2 == mkUInt64 q.1 q.2
        · rfl
        · obtain ⟨h1, h2⟩ := mkUInt64_inj hp
            (hb q (List.mem_cons_self q rest)) (eq_of_beq hx)
          exact absurd (Prod.ext h1 h2) hpq
      rw [List.lookup_cons, hkey,
        ih (start + 1) (fun r hr => hb r (List.mem_cons_of_mem q hr)) hp]
      by_cases hm : p ∈ rest
      · rw [if_pos hm, if_pos (List.mem_cons_of_mem q hm), idxOf,
          if_neg hpq]
        simp only [cond_false]
        congr 1
        omega
      · have hnotm : p ∉ q :: rest := by
          intro hc
          rcases List.mem_cons.mp hc with hc | hc
          · exact hpq hc
          · exact hm hc
        rw [if_neg hm, if_neg hnotm]

theorem vertexData_length (mesh : Mesh) (vi fi : Nat) :
    (vertexData mesh vi fi).length = 8 := by
  rw [vertexData]
  split <;> split <;> rfl

theorem flatMap_vertexData_length (mesh : Mesh) :
    ∀ (l : List (Nat × Nat)),
      (l.flatMap fun p => vertexData mesh p.1 p.2).length = 8 * l.length := by
  intro l
  induction l with
  | nil => rfl
  | cons p rest ih =>
    rw [List.flatMap_cons, List.length_append, vertexData_length, ih,
      List.length_cons]
    omega

/-- Case analysis of per-corner resolution: either the fallback fired and
both indices are 0, or both resolved indices are strictly in bounds. -/
theorem resolvePair_spec (vc fc vi fi : Nat) :
    resolvePair vc fc vi fi = (0, 0) ∨
      (resolvePair vc fc vi fi =
          (vi, if fi ≥ fc then fi >>> 16 else fi) ∧
        vi < vc ∧ (if fi ≥ fc then fi >>> 16 else fi) < fc) := by
  simp only [resolvePair]
  set fi2 := if fi ≥ fc then fi >>> 16 else fi with hfi2
  split
  · exact Or.inl rfl
  · rename_i h
    push_neg at h
    exact Or.inr ⟨rfl, h.1, h.2⟩

theorem resolvePair_snd_lt {vc fc vi fi : Nat} (hfc : fc ≤ 2 ^ 32) :
    (resolvePair vc fc vi fi).2 < 2 ^ 32 := by
  rcases resolvePair_spec vc fc vi fi with h | ⟨h, _, h2⟩
  · rw [h]
    exact Nat.two_pow_pos 32
  · rw [h]
    exact lt_of_lt_of_le h2 hfc

theorem resolveCorner_snd_lt (mesh : Mesh) (idx : Nat)
    (hF : mesh.features.length ≤ 2 ^ 32) :
    (resolveCorner mesh idx).2 < 2 ^ 32 :=
  resolvePair_snd_lt hF


/-- Invariant tying a weld state to the resolved pairs processed so far:
cache, vertex buffer and index buffer are all determined by the
first-appearance list of those pairs. -/
def weldInv (mesh : Mesh) (ps : List (Nat × Nat)) (mids : List Nat)
    (st : WeldState) : Prop :=
  st.vertexMap = keyEntries 0 (firstOccs ps) ∧
  st.vertices = ((firstOccs ps).flatMap fun p => vertexData mesh p.1 p.2) ∧
  st.indices = (ps.map fun p => idxOf p (firstOccs ps)) ∧
  st.materialIds = mids

theorem emitCorner_found {mesh : Mesh} {st : WeldState} {idx v : Nat}
    (h : st.vertexMap.lookup
      (mkUInt64 (resolveCorner mesh idx).1 (resolveCorner mesh idx).2)
        = some v) :
    emitCorner mesh st idx = { st with indices := st.indices ++ [v] } := by
  unfold emitCorner
  rw [h]

theorem emitCorner_notfound {mesh : Mesh} {st : WeldState} {idx : Nat}
    (h : st.vertexMap.lookup
      (mkUInt64 (resolveCorner mesh idx).1 (resolveCorner mesh idx).2)
        = none) :
    emitCorner mesh st idx =
      { st with
          vertexMap := st.vertexMap ++
            [(mkUInt64 (resolveCorner mesh idx).1 (resolveCorner mesh idx).2,
              st.vertices.length / 8)],
          indices := st.indices ++ [st.vertices.length / 8],
          vertices := st.vertices ++
            vertexData mesh (resolveCorner mesh idx).1
              (resolveCorner mesh idx).2 } := by
  unfold emitCorner
  rw [h]

theorem emitCorner_inv (mesh : Mesh)
    (hF : mesh.features.length ≤ 2 ^ 32) {ps : List (Nat × Nat)}
    (hb : ∀ q ∈ ps, q.2 < 2 ^ 32) {mids : List Nat} {st : WeldState}
    (idx : Nat) (hinv : weldInv mesh ps mids st) :
    weldInv mesh (ps ++ [resolveCorner mesh idx]) mids
      (emitCorner mesh st idx) := by
  obtain ⟨hmap, hverts, hinds, hmids⟩ := hinv
  have hp : (resolveCorner mesh idx).2 < 2 ^ 32 :=
    resolveCorner_snd_lt mesh idx hF
  have hbF : ∀ q ∈ firstOccs ps, q.2 < 2 ^ 32 := fun q hq =>
    hb q (mem_firstOccs.mp hq)
  have hlook : st.vertexMap.lookup
      (mkUInt64 (resolveCorner mesh idx).1 (resolveCorner mesh idx).2) =
        if resolveCorner mesh idx ∈ firstOccs ps then
          some (0 + idxOf (resolveCorner mesh idx) (firstOccs ps))
        else none := by
    rw [hmap]
    exact lookup_keyEntries (resolveCorner mesh idx) (firstOccs ps) 0 hbF hp
  by_cases hm : resolveCorner mesh idx ∈ firstOccs ps
  · rw [if_pos hm] at hlook
    rw [emitCorner_found hlook]
    have hfo : firstOccs (ps ++ [resolveCorner mesh idx]) = firstOccs ps := by
      rw [firstOccs_snoc, if_pos hm]
    refine ⟨?_, ?_, ?_, ?_⟩
    · simpa [hfo] using hmap
    · simpa [hfo] using hverts
    · simp only [hfo, List.map_append, List.map_cons, List.map_nil]
      rw [hinds]
      simp
    · simpa using hmids
  · rw [if_neg hm] at hlook
    rw [emitCorner_notfound hlook]
    have hfo : firstOccs (ps ++ [resolveCorner mesh idx]) =
        firstOccs ps ++ [resolveCorner mesh idx] := by
      rw [firstOccs_snoc, if_neg hm]
    have hlen : st.vertices.length = 8 * (firstOccs ps).length := by
      rw [hverts, flatMap_vertexData_length]
    have hdiv : st.vertices.length / 8 = (firstOccs ps).length := by
      omega
    refine ⟨?_, ?_, ?_, ?_⟩
    · show st.vertexMap ++ _ = _
      rw [hfo, keyEntries_snoc, hmap, hdiv]
      simp
    · show st.vertices ++ _ = _
      rw [hfo, List.flatMap_append, hverts]
      simp
    · show st.indices ++ _ = _
      rw [hfo, List.map_append, hinds, hdiv]
      congr 1
      · apply List.map_congr_left
        intro q hq
        exact (idxOf_append_of_mem _ (mem_firstOccs.mpr hq)).symm
      · simp only [List.map_cons, List.map_nil]
        rw [idxOf_append_of_not_mem _ hm, idxOf, if_pos rfl]
        simp
    · simpa using hmids

theorem processCorners_eq (mesh : Mesh) (primId : Nat) :
    ∀ (cs : List Nat) (st : WeldState),
      cs.foldl (processCorner mesh primId) st =
        weldCorners mesh st
          (((cs.map fun c => primId + c).filter
            fun idx => idx < mesh.polygons.vertex_indices.length)) := by
  intro cs
  induction cs with
  | nil => intro st; rfl
  | cons c cs ih =>
    intro st
    rw [List.foldl_cons, List.map_cons, List.filter_cons]
    by_cases h : primId + c < mesh.polygons.vertex_indices.length
    · have hd : decide
          (primId + c < mesh.polygons.vertex_indices.length) = true :=
        decide_eq_true h
      rw [hd]
      have hpc : processCorner mesh primId st c =
          emitCorner mesh st (primId + c) := by
        rw [processCorner, if_neg (by omega)]
      rw [hpc, if_pos rfl]
      exact ih (emitCorner mesh st (primId + c))
    · have hd : decide
          (primId + c < mesh.polygons.vertex_indices.length) = false :=
        decide_eq_false h
      rw [hd]
      have hpc : processCorner mesh primId st c = st := by
        rw [processCorner, if_pos (by omega)]
      rw [hpc, if_neg (by simp)]
      exact ih st

theorem processTriangle_eq (mesh : Mesh) (tri : Triangle) (st : WeldState) :
    processTriangle mesh st tri =
      weldCorners mesh
        { st with materialIds := st.materialIds ++ [tri.matId] }
        ((cornerOffsets tri).filter fun idx =>
          idx < mesh.polygons.vertex_indices.length) := by
  rw [processTriangle, processCorners_eq]
  simp [cornerOffsets]

theorem weldCorners_inv (mesh : Mesh)
    (hF : mesh.features.length ≤ 2 ^ 32) :
    ∀ (cs : List Nat) (ps : List (Nat × Nat)) (mids : List Nat)
      (st : WeldState), (∀ q ∈ ps, q.2 < 2 ^ 32) →
      weldInv mesh ps mids st →
      weldInv mesh (ps ++ cs.map (resolveCorner mesh)) mids
        (weldCorners mesh st cs) := by
  intro cs
  induction cs with
  | nil =>
    intro ps mids st _ hinv
    simpa using hinv
  | cons c cs ih =>
    intro ps mids st hb hinv
    have h1 := emitCorner_inv mesh hF hb c hinv
    have hb1 : ∀ q ∈ ps ++ [resolveCorner mesh c], q.2 < 2 ^ 32 := by
      intro q hq
      rcases List.mem_append.mp hq with hq | hq
      · exact hb q hq
      · rw [List.mem_singleton.mp hq]
        exact resolveCorner_snd_lt mesh c hF
    have h2 := ih (ps ++ [resolveCorner mesh c]) mids
      (emitCorner mesh st c) hb1 h1
    simpa [weldCorners, List.append_assoc] using h2

theorem weldTris_loop (mesh : Mesh)
    (hF : mesh.features.length ≤ 2 ^ 32) :
    ∀ (tris : List Triangle) (ps : List (Nat × Nat)) (mids : List Nat)
      (st : WeldState), (∀ q ∈ ps, q.2 < 2 ^ 32) →
      weldInv mesh ps mids st →
      weldInv mesh (ps ++ resolvedPairs mesh tris)
        (mids ++ tris.map (·.matId))
        (tris.foldl (processTriangle mesh) st) := by
  intro tris
  induction tris with
  | nil =>
    intro ps mids st _ hinv
    simpa [resolvedPairs, cornerReads] using hinv
  | cons t tris ih =>
    intro ps mids st hb hinv
    rw [List.foldl_cons, processTriangle_eq]
    have hinv1 : weldInv mesh ps (mids ++ [t.matId])
        { st with materialIds := st.materialIds ++ [t.matId] } := by
      obtain ⟨h1, h2, h3, h4⟩ := hinv
      exact ⟨h1, h2, h3, by simp [h4]⟩
    have h2 := weldCorners_inv mesh hF
      ((cornerOffsets t).filter fun idx =>
        idx < mesh.polygons.vertex_indices.length)
      ps (mids ++ [t.matId]) _ hb hinv1
    have hb2 : ∀ q ∈ ps ++ ((cornerOffsets t).filter fun idx =>
        idx < mesh.polygons.vertex_indices.length).map
          (resolveCorner mesh), q.2 < 2 ^ 32 := by
      intro q hq
      rcases List.mem_append.mp hq with hq | hq
      · exact hb q hq
      · obtain ⟨c, _, hc⟩ := List.mem_map.mp hq
        rw [← hc]
        exact resolveCorner_snd_lt mesh c hF
    have h3 := ih
      (ps ++ ((cornerOffsets t).filter fun idx =>
        idx < mesh.polygons.vertex_indices.length).map
          (resolveCorner mesh))
      (mids ++ [t.matId]) _ hb2 h2
    have hres : resolvedPairs mesh (t :: tris) =
        ((cornerOffsets t).filter fun idx =>
          idx < mesh.polygons.vertex_indices.length).map
            (resolveCorner mesh) ++ resolvedPairs mesh tris := by
      rw [resolvedPairs, resolvedPairs, cornerReads, List.flatMap_cons,
        List.map_append]
      rfl
    rw [hres]
    simpa [List.append_assoc] using h3

/-- Functional characterisation of the welding loop: its four buffers are
fully determined by the list of resolved pairs of the in-bounds corners.
`indices` maps each processed corner to the first-appearance position of its
resolved pair; `vertices` holds one 8-float record per distinct pair, in
first-appearance order; the cache holds exactly one entry per distinct pair;
`materialIds` lists the triangles' ids in order. -/
theorem weldTriangles_spec (mesh : Mesh)
    (hF : mesh.features.length ≤ 2 ^ 32) (tris : List Triangle) :
    (weldTriangles mesh tris).vertexMap =
        keyEntries 0 (firstOccs (resolvedPairs mesh tris)) ∧
    (weldTriangles mesh tris).vertices =
        ((firstOccs (resolvedPairs mesh tris)).flatMap fun p =>
          vertexData mesh p.1 p.2) ∧
    (weldTriangles mesh tris).indices =
        ((resolvedPairs mesh tris).map fun p =>
          idxOf p (firstOccs (resolvedPairs mesh tris))) ∧
    (weldTriangles mesh tris).materialIds = tris.map (·.matId) := by
  have h := weldTris_loop mesh hF tris [] [] {}
    (by intro q hq; simp at hq) ⟨rfl, rfl, rfl, rfl⟩
  simpa [weldTriangles] using h


/-! ### Pipeline-level lemmas -/

/-- The sorted triangle list the main function welds. -/
def pipelineTris (mesh : Mesh) : List Triangle :=
  sortTriangles (collectTriangles mesh.polygons.material_indices
    (dedupTable mesh.materials)
    (buildRemap mesh.materials (dedupTable mesh.materials)).1)

theorem insertTri_perm (t : Triangle) :
    ∀ ts : List Triangle, (insertTri t ts).Perm (t :: ts) := by
  intro ts
  induction ts with
  | nil => exact List.Perm.refl _
  | cons u us ih =>
    rw [insertTri]
    by_cases h : t.matId ≤ u.matId
    · rw [if_pos h]
    · rw [if_neg h]
      exact (List.Perm.cons u ih).trans (List.Perm.swap t u us)

theorem sortTriangles_perm (ts : List Triangle) :
    (sortTriangles ts).Perm ts := by
  induction ts with
  | nil => exact List.Perm.refl _
  | cons t ts ih =>
    rw [sortTriangles, List.foldr_cons]
    exact (insertTri_perm t _).trans (List.Perm.cons t ih)

theorem mem_sortTriangles {tri : Triangle} {ts : List Triangle} :
    tri ∈ sortTriangles ts ↔ tri ∈ ts :=
  (sortTriangles_perm ts).mem_iff

theorem length_sortTriangles (ts : List Triangle) :
    (sortTriangles ts).length = ts.length :=
  (sortTriangles_perm ts).length_eq

theorem mem_collectTriangles {mid mat : List Nat}
    {remap : List (Nat × Nat)} {tri : Triangle} :
    tri ∈ collectTriangles mid mat remap ↔
      ∃ i, i < mid.length ∧ mid.getD i 0 < mat.length ∧
        tri = ⟨i * 3,
          (remap.lookup (mat.getD (mid.getD i 0) 0)).getD 0⟩ := by
  constructor
  · intro h
    obtain ⟨i, hi, hf⟩ := List.mem_filterMap.mp h
    rw [List.mem_range] at hi
    by_cases hc : mid.getD i 0 < mat.length
    · rw [if_pos hc] at hf
      exact ⟨i, hi, hc, (Option.some_inj.mp hf).symm⟩
    · rw [if_neg hc] at hf
      cases hf
  · rintro ⟨i, hi, hc, rfl⟩
    exact List.mem_filterMap.mpr
      ⟨i, List.mem_range.mpr hi, by rw [if_pos hc]⟩

/-- Both early-return branches (lines 129–136) yield the all-empty result. -/
theorem getProcessedMeshData_early (mesh : Mesh)
    (h : mesh.polygons.vertex_indices = [] ∨ mesh.materials = [] ∨
      mesh.polygons.vertex_indices.length ≠
        mesh.polygons.feature_indices.length) :
    getProcessedMeshData mesh = {} := by
  rw [getProcessedMeshData]
  by_cases h1 : (mesh.polygons.vertex_indices.isEmpty ||
      mesh.materials.isEmpty) = true
  · rw [if_pos h1]
  · rw [if_neg h1]
    have h2 : mesh.polygons.vertex_indices.length ≠
        mesh.polygons.feature_indices.length := by
      rcases h with h | h | h
      · exact absurd (by simp [h]) h1
      · exact absurd (by simp [h]) h1
      · exact h
    rw [if_pos h2]

/-- On the main path (non-empty corner stream, non-empty materials, equal
stream lengths) the output is assembled from the welding state and the
compacted material table. -/
theorem getProcessedMeshData_main (mesh : Mesh)
    (h1 : mesh.polygons.vertex_indices ≠ [])
    (h2 : mesh.materials ≠ [])
    (h3 : mesh.polygons.vertex_indices.length =
      mesh.polygons.feature_indices.length) :
    getProcessedMeshData mesh =
      { vertices := (weldTriangles mesh (pipelineTris mesh)).vertices,
        indices := (weldTriangles mesh (pipelineTris mesh)).indices,
        materialIds := (weldTriangles mesh (pipelineTris mesh)).materialIds,
        materials :=
          (buildRemap mesh.materials (dedupTable mesh.materials)).2 } := by
  rw [getProcessedMeshData]
  have hb1 : (mesh.polygons.vertex_indices.isEmpty ||
      mesh.materials.isEmpty) = false := by
    simp only [Bool.or_eq_false_iff]
    constructor
    · simpa using fun hc => h1 (List.isEmpty_iff.mp hc)
    · simpa using fun hc => h2 (List.isEmpty_iff.mp hc)
  rw [if_neg (by simp [hb1]), if_neg (by omega)]
  rfl

theorem dedupTable_hle (ms : List Material) :
    ∀ i, i < ms.length → (dedupTable ms).getD i 0 ≤ i :=
  fun _ hi => dedupTable_le ms hi

theorem dedupTable_hid (ms : List Material) :
    ∀ i, i < ms.length →
      (dedupTable ms).getD ((dedupTable ms).getD i 0) 0
        = (dedupTable ms).getD i 0 :=
  fun _ hi => dedupTable_idem ms hi

/-- Every triangle the pipeline welds carries a material id that indexes the
compacted material table. -/
theorem pipelineTris_matId_lt (mesh : Mesh) :
    ∀ tri ∈ pipelineTris mesh,
      tri.matId <
        (buildRemap mesh.materials (dedupTable mesh.materials)).2.length := by
  intro tri htri
  rw [pipelineTris, mem_sortTriangles, mem_collectTriangles] at htri
  obtain ⟨i, hi, hc, rfl⟩ := htri
  have hlen : (dedupTable mesh.materials).length = mesh.materials.length :=
    dedupTable_length mesh.materials
  set d := (dedupTable mesh.materials).getD
    (mesh.polygons.material_indices.getD i 0) 0 with hd
  have hmid : mesh.polygons.material_indices.getD i 0 <
      mesh.materials.length := by omega
  have hrep : (dedupTable mesh.materials).getD d 0 = d :=
    dedupTable_idem mesh.materials hmid
  have hdlt : d < mesh.materials.length := by
    rw [hd, dedupTable_getD mesh.materials _ hmid]
    exact classRep_lt hmid
  have hlook := buildRemap_lookup mesh.materials (dedupTable mesh.materials)
    (dedupTable_hle mesh.materials) (dedupTable_hid mesh.materials) d
  rw [if_pos ⟨hrep, hdlt⟩] at hlook
  show ((buildRemap mesh.materials
    (dedupTable mesh.materials)).1.lookup d).getD 0 < _
  rw [hlook]
  have hsnd := buildRemap_snd mesh.materials (dedupTable mesh.materials)
    (dedupTable_hle mesh.materials) (dedupTable_hid mesh.materials)
  rw [hsnd, List.length_map, ← hlen]
  exact repIdx_lt_length (by omega) hrep

/-- Every entry of the welded index buffer addresses a full 8-float record
inside the welded vertex buffer. -/
theorem indices_entry_lt (mesh : Mesh)
    (hF : mesh.features.length ≤ 2 ^ 32) (tris : List Triangle) :
    ∀ e ∈ (weldTriangles mesh tris).indices,
      8 * e + 8 ≤ (weldTriangles mesh tris).vertices.length := by
  intro e he
  obtain ⟨hmap, hverts, hinds, hmids⟩ := weldTriangles_spec mesh hF tris
  rw [hinds] at he
  obtain ⟨p, hp, rfl⟩ := List.mem_map.mp he
  have hmem : p ∈ firstOccs (resolvedPairs mesh tris) := mem_firstOccs.mpr hp
  have hlt := idxOf_lt_length hmem
  rw [hverts, flatMap_vertexData_length]
  omega


/-! ### Additional helpers -/

theorem getD_append_left {l₁ l₂ : List Nat} {n : Nat} (h : n < l₁.length) :
    (l₁ ++ l₂).getD n 0 = l₁.getD n 0 := by
  simp [List.getElem?_append_left h]

theorem getD_append_right {l₁ l₂ : List Nat} {n : Nat}
    (h : l₁.length ≤ n) :
    (l₁ ++ l₂).getD n 0 = l₂.getD (n - l₁.length) 0 := by
  simp [List.getElem?_append_right h]

theorem repList_getD_repIdx {mat : List Nat} {d : Nat}
    (hrep : mat.getD d 0 = d) :
    ∀ {n : Nat}, d < n → (repList mat n).getD (repIdx mat d) 0 = d := by
  intro n
  induction n with
  | zero => intro h; omega
  | succ n ih =>
    intro h
    rcases Nat.lt_or_ge d n with h2 | h2
    · have hlt : repIdx mat d < (repList mat n).length := by
        have := repIdx_lt_length h2 hrep
        exact this
      rw [repList_succ, getD_append_left hlt]
      exact ih h2
    · have hdn : d = n := by omega
      subst hdn
      rw [repList_succ, if_pos hrep]
      show (repList mat d ++ [d]).getD ((repList mat d).length) 0 = d
      rw [getD_append_right le_rfl]
      simp

/-- The welding loop's material-id output needs no side conditions: one id
per triangle, in order. -/
theorem emitCorner_materialIds (mesh : Mesh) (st : WeldState) (idx : Nat) :
    (emitCorner mesh st idx).materialIds = st.materialIds := by
  unfold emitCorner
  split <;> rfl

theorem processCorner_materialIds (mesh : Mesh) (primId : Nat)
    (st : WeldState) (c : Nat) :
    (processCorner mesh primId st c).materialIds = st.materialIds := by
  unfold processCorner
  split
  · rfl
  · exact emitCorner_materialIds mesh st (primId + c)

theorem processTriangle_materialIds (mesh : Mesh) (st : WeldState)
    (tri : Triangle) :
    (processTriangle mesh st tri).materialIds =
      st.materialIds ++ [tri.matId] := by
  rw [processTriangle]
  simp only [List.foldl_cons, List.foldl_nil, processCorner_materialIds]

theorem weldTriangles_materialIds (mesh : Mesh) :
    ∀ (tris : List Triangle) (st : WeldState),
      (tris.foldl (processTriangle mesh) st).materialIds =
        st.materialIds ++ tris.map (·.matId) := by
  intro tris
  induction tris with
  | nil => intro st; simp
  | cons t tris ih =>
    intro st
    rw [List.foldl_cons, ih, processTriangle_materialIds]
    simp

/-! ### Claim theorems and their witnesses -/

/-- A concrete fully populated material. -/
def matA : Material :=
  { name := "STONE", group := 1, color := ⟨10, 20, 30, 40⟩,
    smooth_angle := 60, texture := "WALL1", texture_scale := ⟨2, 3⟩,
    texture_anim_fps := 0, texture_anim_map_mode := 0,
    texture_anim_map_dir := ⟨0, 0⟩, detail_object := false,
    detail_object_scale := 1, force_occluder := false,
    environment_mapping := false, environment_mapping_strength := 0,
    wave_mode := 0, wave_speed := 0, wave_max_amplitude := 0,
    wave_grid_size := 0, ignore_sun := false, default_mapping := ⟨2, 2⟩ }

/-- Same as `matA` except for the texture name. -/
def matB : Material := { matA with texture := "WALL2" }

/-- C9: a `RawMesh` with an empty corner-index stream or an empty material
list yields the all-empty `PackedMesh`, as a successful (non-error)
result.  (The model is a total function, so the result being the defined
empty record is itself the success signal.) -/
theorem c9_empty_input (mesh : Mesh)
    (h : mesh.polygons.vertex_indices = [] ∨ mesh.materials = []) :
    (getProcessedMeshData mesh).vertices = [] ∧
    (getProcessedMeshData mesh).indices = [] ∧
    (getProcessedMeshData mesh).materialIds = [] ∧
    (getProcessedMeshData mesh).materials = [] := by
  rw [getProcessedMeshData_early mesh (by tauto)]
  exact ⟨rfl, rfl, rfl, rfl⟩

/-- Mesh with geometry but no materials, for the C9 witness. -/
def meshNoMaterials : Mesh :=
  { vertices := [⟨1, 2, 3⟩], features := [⟨⟨0, 0⟩, 0, ⟨0, 0, 1⟩⟩],
    materials := [],
    polygons := { vertex_indices := [0, 0, 0], feature_indices := [0, 0, 0],
                  material_indices := [0] } }

theorem c9_empty_input_witness :
    (meshNoMaterials.polygons.vertex_indices = [] ∨
      meshNoMaterials.materials = []) ∧
    ((getProcessedMeshData meshNoMaterials).vertices = [] ∧
     (getProcessedMeshData meshNoMaterials).indices = [] ∧
     (getProcessedMeshData meshNoMaterials).materialIds = [] ∧
     (getProcessedMeshData meshNoMaterials).materials = []) :=
  ⟨Or.inr rfl, c9_empty_input meshNoMaterials (Or.inr rfl)⟩

/-- C10: the finished class table is downward-closed and idempotent
(`mat[i] ≤ i` and `mat[mat[i]] = mat[i]`), the representative is the least
member of its class, and the record the compaction copies for `i`'s class is
the material at that least index. -/
theorem c10_class_table (ms : List Material) (i : Nat)
    (hi : i < ms.length) :
    (dedupTable ms).getD i 0 ≤ i ∧
    (dedupTable ms).getD ((dedupTable ms).getD i 0) 0
        = (dedupTable ms).getD i 0 ∧
    (∀ j, j < ms.length →
      (dedupTable ms).getD j 0 = (dedupTable ms).getD i 0 →
        (dedupTable ms).getD i 0 ≤ j) ∧
    ∃ r, (buildRemap ms (dedupTable ms)).1.lookup
          ((dedupTable ms).getD i 0) = some r ∧
      (buildRemap ms (dedupTable ms)).2.getD r default =
        toMaterialData (ms.getD ((dedupTable ms).getD i 0) default) := by
  have hrep : (dedupTable ms).getD ((dedupTable ms).getD i 0) 0
      = (dedupTable ms).getD i 0 := dedupTable_idem ms hi
  have hd_lt : (dedupTable ms).getD i 0 < ms.length := by
    rw [dedupTable_getD ms i hi]
    exact classRep_lt hi
  refine ⟨dedupTable_le ms hi, hrep, ?_, ?_⟩
  · intro j hj hcls
    rw [dedupTable_getD ms j hj, dedupTable_getD ms i hi] at hcls
    rw [dedupTable_getD ms i hi, ← hcls]
    exact classRep_le hj
  · refine ⟨repIdx (dedupTable ms) ((dedupTable ms).getD i 0), ?_, ?_⟩
    · rw [buildRemap_lookup ms (dedupTable ms) (dedupTable_hle ms)
        (dedupTable_hid ms), if_pos ⟨hrep, hd_lt⟩]
    · rw [buildRemap_snd ms (dedupTable ms) (dedupTable_hle ms)
        (dedupTable_hid ms)]
      have hltL : repIdx (dedupTable ms) ((dedupTable ms).getD i 0) <
          (repList (dedupTable ms) ms.length).length :=
        repIdx_lt_length hd_lt hrep
      have hval : (repList (dedupTable ms)
          ms.length)[repIdx (dedupTable ms) ((dedupTable ms).getD i 0)] =
            (dedupTable ms).getD i 0 := by
        have h := repList_getD_repIdx hrep hd_lt
        rw [List.getD_eq_getElem?_getD,
          List.getElem?_eq_getElem hltL] at h
        simpa using h
      rw [List.getD_eq_getElem?_getD, List.getElem?_map,
        List.getElem?_eq_getElem hltL]
      simp only [Option.map_some', Option.getD_some]
      rw [hval]

/-- Chained input for the C10 witness: materials 0 and 2 are visually the
same, material 1 differs. -/
def msChain : List Material := [matA, matB, matA]

theorem c10_class_table_witness :
    2 < msChain.length ∧
    ((dedupTable msChain).getD 2 0 ≤ 2 ∧
    (dedupTable msChain).getD ((dedupTable msChain).getD 2 0) 0
        = (dedupTable msChain).getD 2 0 ∧
    (∀ j, j < msChain.length →
      (dedupTable msChain).getD j 0 = (dedupTable msChain).getD 2 0 →
        (dedupTable msChain).getD 2 0 ≤ j) ∧
    ∃ r, (buildRemap msChain (dedupTable msChain)).1.lookup
          ((dedupTable msChain).getD 2 0) = some r ∧
      (buildRemap msChain (dedupTable msChain)).2.getD r default =
        toMaterialData (msChain.getD ((dedupTable msChain).getD 2 0)
          default)) :=
  ⟨by decide, c10_class_table msChain 2 (by decide)⟩


/-- C5: two input materials end up in the same deduplication class exactly
when they agree on every field the similarity predicate compares (`visKey`
enumerates that field list: group, RGBA, smoothing angle, texture name,
texture scale, animation fps/mode/direction, detail-object flag/scale,
occluder flag, environment-mapping flag/strength, wave mode/speed/
amplitude/grid, sun-ignore flag, default mapping; the material *name* is not
among them).  In particular two materials differing only in their texture
string stay in distinct classes and both survive into the output table. -/
theorem c5_same_class_iff :
    (∀ (ms : List Material) (i j : Nat), i < ms.length → j < ms.length →
      ((dedupTable ms).getD i 0 = (dedupTable ms).getD j 0 ↔
        visKey (ms.getD i default) = visKey (ms.getD j default))) ∧
    (matA.texture ≠ matB.texture ∧
      (dedupTable [matA, matB]).getD 0 0 ≠
        (dedupTable [matA, matB]).getD 1 0 ∧
      (buildRemap [matA, matB] (dedupTable [matA, matB])).2.length = 2) := by
  constructor
  · intro ms i j hi hj
    rw [dedupTable_getD ms i hi, dedupTable_getD ms j hj,
      ← isVisuallySame_iff]
    constructor
    · intro h
      have h1 := classRep_same hi
      have h2 := classRep_same hj
      rw [h] at h1
      exact isVisuallySame_trans (isVisuallySame_symm h1) h2
    · intro h
      exact classRep_eq_of_same hi hj h
  · refine ⟨by decide, by decide, by decide⟩

theorem c5_same_class_iff_witness :
    0 < msChain.length ∧ 2 < msChain.length ∧
    ((dedupTable msChain).getD 0 0 = (dedupTable msChain).getD 2 0 ↔
      visKey (msChain.getD 0 default) = visKey (msChain.getD 2 default)) :=
  ⟨by decide, by decide,
    c5_same_class_iff.1 msChain 0 2 (by decide) (by decide)⟩

/-- C6: the compacted table holds exactly one representative per class (the
fixed points of the class table, in increasing order = order of first
appearance), its length is at most the input length, every original index is
remapped to a valid slot of the table, and every emitted per-triangle
material id indexes the table. -/
theorem c6_compaction :
    (∀ ms : List Material,
      (buildRemap ms (dedupTable ms)).2.length ≤ ms.length ∧
      (buildRemap ms (dedupTable ms)).2 =
        (repList (dedupTable ms) ms.length).map
          (fun v => toMaterialData (ms.getD v default)) ∧
      (∀ v ∈ repList (dedupTable ms) ms.length,
        (dedupTable ms).getD v 0 = v) ∧
      (∀ i, i < ms.length →
        (dedupTable ms).getD i 0 ∈ repList (dedupTable ms) ms.length ∧
        ∃ r, (buildRemap ms (dedupTable ms)).1.lookup
            ((dedupTable ms).getD i 0) = some r ∧
          r < (buildRemap ms (dedupTable ms)).2.length)) ∧
    ∀ mesh : Mesh, ∀ e ∈ (getProcessedMeshData mesh).materialIds,
      e < (getProcessedMeshData mesh).materials.length := by
  constructor
  · intro ms
    have hsnd := buildRemap_snd ms (dedupTable ms) (dedupTable_hle ms)
      (dedupTable_hid ms)
    refine ⟨?_, hsnd, ?_, ?_⟩
    · rw [hsnd, List.length_map, repList]
      calc ((List.range ms.length).filter _).length
          ≤ (List.range ms.length).length := List.length_filter_le _ _
        _ = ms.length := List.length_range ms.length
    · intro v hv
      exact (mem_repList.mp hv).2
    · intro i hi
      have hrep : (dedupTable ms).getD ((dedupTable ms).getD i 0) 0
          = (dedupTable ms).getD i 0 := dedupTable_idem ms hi
      have hd_lt : (dedupTable ms).getD i 0 < ms.length := by
        rw [dedupTable_getD ms i hi]
        exact classRep_lt hi
      refine ⟨mem_repList.mpr ⟨hd_lt, hrep⟩,
        repIdx (dedupTable ms) ((dedupTable ms).getD i 0), ?_, ?_⟩
      · rw [buildRemap_lookup ms (dedupTable ms) (dedupTable_hle ms)
          (dedupTable_hid ms), if_pos ⟨hrep, hd_lt⟩]
      · rw [hsnd, List.length_map]
        exact repIdx_lt_length hd_lt hrep
  · intro mesh e he
    by_cases hcase : mesh.polygons.vertex_indices = [] ∨
        mesh.materials = [] ∨
        mesh.polygons.vertex_indices.length ≠
          mesh.polygons.feature_indices.length
    · rw [getProcessedMeshData_early mesh hcase] at he
      simp at he
    · push_neg at hcase
      obtain ⟨h1, h2, h3⟩ := hcase
      rw [getProcessedMeshData_main mesh h1 h2 h3] at he ⊢
      have hmids : (weldTriangles mesh (pipelineTris mesh)).materialIds =
          (pipelineTris mesh).map (·.matId) := by
        have h := weldTriangles_materialIds mesh (pipelineTris mesh) {}
        simpa [weldTriangles] using h
      have he2 : e ∈ (pipelineTris mesh).map (·.matId) := by
        rw [← hmids]
        exact he
      show e <
        (buildRemap mesh.materials (dedupTable mesh.materials)).2.length
      obtain ⟨tri, htri, rfl⟩ := List.mem_map.mp he2
      exact pipelineTris_matId_lt mesh tri htri

/-- Small well-formed mesh (one triangle, one material) used by several
witnesses. -/
def wMesh : Mesh :=
  { vertices := [⟨1, 2, 3⟩], features := [⟨⟨4, 5⟩, 0, ⟨0, 0, 1⟩⟩],
    materials := [matA],
    polygons := { vertex_indices := [0, 0, 0], feature_indices := [0, 0, 0],
                  material_indices := [0] } }

theorem c6_compaction_witness :
    (2 < msChain.length ∧
      ((dedupTable msChain).getD 2 0 ∈
          repList (dedupTable msChain) msChain.length ∧
        ∃ r, (buildRemap msChain (dedupTable msChain)).1.lookup
            ((dedupTable msChain).getD 2 0) = some r ∧
          r < (buildRemap msChain (dedupTable msChain)).2.length)) ∧
    (0 ∈ (getProcessedMeshData wMesh).materialIds ∧
      0 < (getProcessedMeshData wMesh).materials.length) :=
  ⟨⟨by decide, (c6_compaction.1 msChain).2.2.2 2 (by decide)⟩,
    ⟨by decide, c6_compaction.2 wMesh 0 (by decide)⟩⟩


/-- Mesh whose two corner-index streams have different lengths (1 vs 2),
with an in-bounds corner 0 and a valid triangle; input for the C1
counterexample. -/
def cexMeshC1 : Mesh :=
  { vertices := [⟨1, 2, 3⟩], features := [⟨⟨4, 5⟩, 0, ⟨0, 0, 1⟩⟩],
    materials := [matA],
    polygons := { vertex_indices := [0], feature_indices := [0, 0],
                  material_indices := [0] } }

/-- C1 counterexample: the streams are non-empty, a material exists, the
triangle's material index is valid and corner 0 is in bounds of *both*
corner-index streams, so under the claim that corner must be resolved and
emit an index entry.  The code instead returns the all-empty mesh, because
the unequal stream lengths (1 ≠ 2) hit the `ibo.size() != feat.size()`
early return (line 134): not only the out-of-bounds corners are skipped. -/
theorem c1_counterexample :
    cexMeshC1.polygons.vertex_indices ≠ [] ∧
    cexMeshC1.materials ≠ [] ∧
    0 < cexMeshC1.polygons.vertex_indices.length ∧
    0 < cexMeshC1.polygons.feature_indices.length ∧
    cexMeshC1.polygons.material_indices.getD 0 0 <
      cexMeshC1.materials.length ∧
    cexMeshC1.polygons.vertex_indices.length ≠
      cexMeshC1.polygons.feature_indices.length ∧
    (getProcessedMeshData cexMeshC1).indices = [] ∧
    (getProcessedMeshData cexMeshC1).vertices = [] := by
  decide

/-- C1 (amended): corner reads out of bounds of the corner-index streams
skip exactly that corner — no index entry and no vertex is emitted for it —
and every in-bounds corner is welded exactly as in the normal (unguarded)
path; per triangle, the corner loop equals the guard-free welder run on
precisely the in-bounds corner positions.  The amendment: when the two
corner-index streams have *unequal lengths* the function does not fall back
to per-corner skipping; it returns the empty mesh outright. -/
theorem c1_corner_skip :
    (∀ (mesh : Mesh) (st : WeldState) (primId c : Nat),
      mesh.polygons.vertex_indices.length ≤ primId + c →
        processCorner mesh primId st c = st) ∧
    (∀ (mesh : Mesh) (st : WeldState) (primId c : Nat),
      primId + c < mesh.polygons.vertex_indices.length →
        processCorner mesh primId st c = emitCorner mesh st (primId + c)) ∧
    (∀ (mesh : Mesh) (st : WeldState) (tri : Triangle),
      processTriangle mesh st tri =
        weldCorners mesh
          { st with materialIds := st.materialIds ++ [tri.matId] }
          ((cornerOffsets tri).filter fun idx =>
            idx < mesh.polygons.vertex_indices.length)) ∧
    (∀ mesh : Mesh, mesh.polygons.vertex_indices.length ≠
        mesh.polygons.feature_indices.length →
      getProcessedMeshData mesh = {}) := by
  refine ⟨?_, ?_, ?_, ?_⟩
  · intro mesh st primId c h
    rw [processCorner, if_pos h]
  · intro mesh st primId c h
    rw [processCorner, if_neg (by omega)]
  · intro mesh st tri
    exact processTriangle_eq mesh tri st
  · intro mesh h
    exact getProcessedMeshData_early mesh (Or.inr (Or.inr h))

theorem c1_corner_skip_witness :
    (wMesh.polygons.vertex_indices.length ≤ 1 + 2 ∧
      processCorner wMesh 1 {} 2 = {}) ∧
    (0 + 0 < wMesh.polygons.vertex_indices.length ∧
      processCorner wMesh 0 {} 0 = emitCorner wMesh {} (0 + 0)) ∧
    (cexMeshC1.polygons.vertex_indices.length ≠
        cexMeshC1.polygons.feature_indices.length ∧
      getProcessedMeshData cexMeshC1 = {}) :=
  ⟨⟨by decide, c1_corner_skip.1 wMesh {} 1 2 (by decide)⟩,
   ⟨by decide, c1_corner_skip.2.1 wMesh {} 0 0 (by decide)⟩,
   ⟨by decide, c1_corner_skip.2.2.2 cexMeshC1 (by decide)⟩⟩

/-- One triangle over three distinct vertices; input for the C2
counterexample. -/
def cexMeshC2 : Mesh :=
  { vertices := [⟨1, 2, 3⟩, ⟨4, 5, 6⟩, ⟨7, 8, 9⟩],
    features := [⟨⟨0, 0⟩, 0, ⟨0, 0, 1⟩⟩, ⟨⟨1, 0⟩, 0, ⟨0, 0, 1⟩⟩,
                 ⟨⟨0, 1⟩, 0, ⟨0, 0, 1⟩⟩],
    materials := [matA],
    polygons := { vertex_indices := [0, 1, 2], feature_indices := [0, 1, 2],
                  material_indices := [0] } }

/-- C2 counterexample: three distinct corners weld to three distinct output
vertices (24 floats).  Under the claim every `indices` entry equals 8 times
the ordinal of its welded vertex, so every entry would be divisible by 8;
the actual entries are the ordinals themselves, `[0, 1, 2]`, and the entry
at position 1 is 1, not 8. -/
theorem c2_counterexample :
    (getProcessedMeshData cexMeshC2).indices = [0, 1, 2] ∧
    (getProcessedMeshData cexMeshC2).vertices.length = 24 ∧
    (getProcessedMeshData cexMeshC2).indices.getD 1 0 % 8 ≠ 0 := by
  decide

/-- C2 (amended): each `indices` entry is the 0-based *ordinal* of the
welded vertex it references (multiply by 8 to obtain the float offset into
`vertices`); every entry addresses a full 8-float record, and the vertex
buffer is a whole number of 8-float records. -/
theorem c2_indices_are_ordinals (mesh : Mesh)
    (hF : mesh.features.length ≤ 2 ^ 32) :
    (∀ e ∈ (getProcessedMeshData mesh).indices,
      8 * e + 8 ≤ (getProcessedMeshData mesh).vertices.length) ∧
    (getProcessedMeshData mesh).vertices.length % 8 = 0 := by
  by_cases hcase : mesh.polygons.vertex_indices = [] ∨
      mesh.materials = [] ∨
      mesh.polygons.vertex_indices.length ≠
        mesh.polygons.feature_indices.length
  · rw [getProcessedMeshData_early mesh hcase]
    constructor
    · intro e he
      simp at he
    · rfl
  · push_neg at hcase
    obtain ⟨h1, h2, h3⟩ := hcase
    rw [getProcessedMeshData_main mesh h1 h2 h3]
    constructor
    · intro e he
      have he2 : e ∈ (weldTriangles mesh (pipelineTris mesh)).indices := he
      show 8 * e + 8 ≤ (weldTriangles mesh (pipelineTris mesh)).vertices.length
      exact indices_entry_lt mesh hF (pipelineTris mesh) e he2
    · show (weldTriangles mesh (pipelineTris mesh)).vertices.length % 8 = 0
      rw [(weldTriangles_spec mesh hF (pipelineTris mesh)).2.1,
        flatMap_vertexData_length]
      omega

theorem c2_indices_are_ordinals_witness :
    cexMeshC2.features.length ≤ 2 ^ 32 ∧
    1 ∈ (getProcessedMeshData cexMeshC2).indices ∧
    8 * 1 + 8 ≤ (getProcessedMeshData cexMeshC2).vertices.length :=
  ⟨by decide, by decide,
    (c2_indices_are_ordinals cexMeshC2 (by decide)).1 1 (by decide)⟩

/-- C4: the per-corner resolution rule, conjunct by conjunct: an in-range
attribute index passes through; an out-of-range one is replaced by its
`>> 16` shift when that lands in range; an out-of-range position index, or
an attribute index still out of range after the shift, forces both indices
to 0; the legacy scenario `attributeCount + (k << 16)` resolves to `k`, or
to the fallback when `k` is still out of range; and `resolveCorner` is
exactly this rule applied to the raw stream reads. -/
theorem c4_legacy_resolution :
    (∀ vc fc vi fi : Nat, fi < fc → vi < vc →
      resolvePair vc fc vi fi = (vi, fi)) ∧
    (∀ vc fc vi fi : Nat, fc ≤ fi → fi >>> 16 < fc → vi < vc →
      resolvePair vc fc vi fi = (vi, fi >>> 16)) ∧
    (∀ vc fc vi fi : Nat, vc ≤ vi → resolvePair vc fc vi fi = (0, 0)) ∧
    (∀ vc fc vi fi : Nat, fc ≤ fi → fc ≤ fi >>> 16 →
      resolvePair vc fc vi fi = (0, 0)) ∧
    (∀ vc fc vi k : Nat, vi < vc → fc < 2 ^ 16 →
      resolvePair vc fc vi (fc + (k <<< 16)) =
        if k < fc then (vi, k) else (0, 0)) ∧
    (∀ (mesh : Mesh) (idx : Nat), resolveCorner mesh idx =
      resolvePair mesh.vertices.length mesh.features.length
        (mesh.polygons.vertex_indices.getD idx 0)
        (mesh.polygons.feature_indices.getD idx 0)) := by
  refine ⟨?_, ?_, ?_, ?_, ?_, ?_⟩
  · intro vc fc vi fi h1 h2
    simp only [resolvePair]
    rw [if_neg (show ¬fi ≥ fc by omega),
      if_neg (show ¬(vi ≥ vc ∨ fi ≥ fc) by omega)]
  · intro vc fc vi fi h1 h2 h3
    simp only [resolvePair]
    rw [if_pos (show fi ≥ fc from h1),
      if_neg (show ¬(vi ≥ vc ∨ fi >>> 16 ≥ fc) by omega)]
  · intro vc fc vi fi h1
    simp only [resolvePair]
    rw [if_pos (Or.inl (show vi ≥ vc from h1))]
  · intro vc fc vi fi h1 h2
    simp only [resolvePair]
    rw [if_pos (show fi ≥ fc from h1),
      if_pos (Or.inr (show fi >>> 16 ≥ fc from h2))]
  · intro vc fc vi k h1 h2
    simp only [resolvePair]
    rw [if_pos (show fc + (k <<< 16) ≥ fc from Nat.le_add_right fc _)]
    have hs : (fc + (k <<< 16)) >>> 16 = k := by
      rw [Nat.shiftLeft_eq, Nat.shiftRight_eq_div_pow]
      have h16 : (2 : Nat) ^ 16 = 65536 := by norm_num
      rw [h16] at h2 ⊢
      omega
    rw [hs]
    by_cases hk : k < fc
    · rw [if_neg (show ¬(vi ≥ vc ∨ k ≥ fc) by omega), if_pos hk]
    · rw [if_pos (Or.inr (show k ≥ fc by omega)), if_neg hk]
  · intro mesh idx
    rfl

theorem c4_legacy_resolution_witness :
    (3 < 7 ∧ 2 < 5 ∧ resolvePair 5 7 2 3 = (2, 3)) ∧
    (7 ≤ 655360 ∧ 655360 >>> 16 < 12 ∧ 2 < 5 ∧
      resolvePair 5 12 2 655360 = (2, 655360 >>> 16)) ∧
    (2 < 5 ∧ 7 < 2 ^ 16 ∧
      resolvePair 5 7 2 (7 + (3 <<< 16)) =
        if 3 < 7 then (2, 3) else (0, 0)) ∧
    (2 < 5 ∧ 7 < 2 ^ 16 ∧
      resolvePair 5 7 2 (7 + (9 <<< 16)) =
        if 9 < 7 then (2, 9) else (0, 0)) :=
  ⟨⟨by decide, by decide, c4_legacy_resolution.1 5 7 2 3 (by decide)
      (by decide)⟩,
   ⟨by decide, by decide, by decide, c4_legacy_resolution.2.1 5 12 2 655360
      (by decide) (by decide) (by decide)⟩,
   ⟨by decide, by norm_num, c4_legacy_resolution.2.2.2.2.1 5 7 2 3
      (by decide) (by norm_num)⟩,
   ⟨by decide, by norm_num, c4_legacy_resolution.2.2.2.2.1 5 7 2 9
      (by decide) (by norm_num)⟩⟩


/-! ### Per-triangle chunk structure of the index buffer (for C3) -/

theorem flatMap_length_3 {f : Triangle → List Nat}
    (hf : ∀ tri : Triangle, (f tri).length = 3) :
    ∀ tris : List Triangle, (tris.flatMap f).length = 3 * tris.length := by
  intro tris
  induction tris with
  | nil => rfl
  | cons u rest ih =>
    rw [List.flatMap_cons, List.length_append, hf u, ih, List.length_cons]
    omega

theorem flatMap_chunk3_getD {f : Triangle → List Nat}
    (hf : ∀ tri : Triangle, (f tri).length = 3) :
    ∀ (tris : List Triangle) (t c : Nat), t < tris.length → c < 3 →
      (tris.flatMap f).getD (3 * t + c) 0 =
        (f (tris.getD t default)).getD c 0 := by
  intro tris
  induction tris with
  | nil => intro t c ht _; simp at ht
  | cons u rest ih =>
    intro t c ht hc
    match t with
    | 0 =>
      rw [List.flatMap_cons, getD_append_left (by rw [hf u]; omega)]
      have h30 : 3 * 0 + c = c := by omega
      rw [h30, List.getD_cons_zero]
    | t + 1 =>
      rw [List.flatMap_cons, getD_append_right (by rw [hf u]; omega)]
      have hsub : 3 * (t + 1) + c - (f u).length = 3 * t + c := by
        rw [hf u]
        omega
      rw [hsub, ih t c (by simpa using ht) hc, List.getD_cons_succ]

theorem chunk_getD (mesh : Mesh) (g : Nat × Nat → Nat) (tri : Triangle)
    (c : Nat) (hc : c < 3) :
    (((cornerOffsets tri).map (resolveCorner mesh)).map g).getD c 0 =
      g (resolveCorner mesh (tri.primId + c)) := by
  interval_cases c <;> simp [cornerOffsets]

theorem getD_map_pair {g : Nat × Nat → Nat} {l : List (Nat × Nat)}
    {n : Nat} (hn : n < l.length) :
    (l.map g).getD n 0 = g (l.getD n (0, 0)) := by
  rw [List.getD_eq_getElem?_getD, List.getElem?_map,
    List.getElem?_eq_getElem hn]
  simp only [Option.map_some', Option.getD_some]
  congr 1
  rw [List.getD_eq_getElem?_getD, List.getElem?_eq_getElem hn]
  rfl

theorem getD_map_matId {tris : List Triangle} {t : Nat}
    (ht : t < tris.length) :
    (tris.map (·.matId)).getD t 0 = (tris.getD t default).matId := by
  rw [List.getD_eq_getElem?_getD, List.getElem?_map,
    List.getElem?_eq_getElem ht]
  simp only [Option.map_some', Option.getD_some]
  congr 1
  rw [List.getD_eq_getElem?_getD, List.getElem?_eq_getElem ht]
  rfl

/-- When the corner streams cover all triangles, no corner is skipped and
the processed corner list is precisely three offsets per produced
triangle. -/
theorem cornerReads_full (iboLen : Nat) :
    ∀ tris : List Triangle, (∀ tri ∈ tris, tri.primId + 2 < iboLen) →
      cornerReads iboLen tris = tris.flatMap cornerOffsets := by
  intro tris hcov
  rw [cornerReads]
  rw [show (tris.flatMap fun tri => (cornerOffsets tri).filter fun idx =>
      idx < iboLen) = tris.flatMap fun tri =>
        ((cornerOffsets tri).filter fun idx => idx < iboLen) from rfl]
  unfold List.flatMap
  congr 1
  apply List.map_congr_left
  intro tri htri
  apply List.filter_eq_self.mpr
  intro a ha
  have h2 := hcov tri htri
  rw [cornerOffsets] at ha
  simp only [List.mem_cons, List.not_mem_nil, or_false] at ha
  rcases ha with ha | ha | ha
  all_goals rw [ha]
  all_goals exact decide_eq_true (by omega)

theorem pipelineTris_cov (mesh : Mesh)
    (hcov : 3 * mesh.polygons.material_indices.length ≤
      mesh.polygons.vertex_indices.length) :
    ∀ tri ∈ pipelineTris mesh,
      tri.primId + 2 < mesh.polygons.vertex_indices.length := by
  intro tri htri
  rw [pipelineTris, mem_sortTriangles, mem_collectTriangles] at htri
  obtain ⟨i, hi, _, htri2⟩ := htri
  rw [htri2]
  show i * 3 + 2 < _
  omega

/-- Mesh with one triangle but only one corner-index entry (the invariant
`#corners = 3 × #triangles` is violated); input for the C3
counterexample. -/
def cexMeshC3 : Mesh :=
  { vertices := [⟨1, 2, 3⟩], features := [⟨⟨4, 5⟩, 0, ⟨0, 0, 1⟩⟩],
    materials := [matA],
    polygons := { vertex_indices := [0], feature_indices := [0],
                  material_indices := [0] } }

/-- C3 counterexample: the triangle's corners 1 and 2 read beyond the
corner-index streams and are skipped, so the triangle emits a material id
but only one index entry; `indices.length = 1 ≠ 3 = 3 ×
materialIds.length`. -/
theorem c3_counterexample :
    (getProcessedMeshData cexMeshC3).materialIds.length = 1 ∧
    (getProcessedMeshData cexMeshC3).indices.length = 1 ∧
    (getProcessedMeshData cexMeshC3).indices.length ≠
      3 * (getProcessedMeshData cexMeshC3).materialIds.length := by
  decide

/-- C3 (amended): `materialIds` always carries exactly one entry per output
triangle, in the post-sort order.  *Provided every produced triangle's three
corner reads are in bounds* (in particular whenever the documented invariant
`#corners = 3 × #triangles` holds, here as `3 × mid.length ≤ ibo.length`),
`indices.length = 3 × materialIds.length` and the entries at positions
`3t, 3t+1, 3t+2` are exactly the welded corners of the `t`-th sorted
triangle — the triangle whose id is `materialIds[t]`.  When corners are
skipped, `indices` can be shorter (see the counterexample). -/
theorem c3_alignment (mesh : Mesh)
    (hF : mesh.features.length ≤ 2 ^ 32)
    (h1 : mesh.polygons.vertex_indices ≠ [])
    (h2 : mesh.materials ≠ [])
    (h3 : mesh.polygons.vertex_indices.length =
      mesh.polygons.feature_indices.length)
    (hcov : 3 * mesh.polygons.material_indices.length ≤
      mesh.polygons.vertex_indices.length) :
    (getProcessedMeshData mesh).materialIds =
      (pipelineTris mesh).map (·.matId) ∧
    (getProcessedMeshData mesh).indices.length =
      3 * (getProcessedMeshData mesh).materialIds.length ∧
    ∀ t, t < (getProcessedMeshData mesh).materialIds.length →
      (getProcessedMeshData mesh).materialIds.getD t 0 =
        ((pipelineTris mesh).getD t default).matId ∧
      ∀ c, c < 3 →
        (getProcessedMeshData mesh).indices.getD (3 * t + c) 0 =
          idxOf (resolveCorner mesh
              (((pipelineTris mesh).getD t default).primId + c))
            (firstOccs (resolvedPairs mesh (pipelineTris mesh))) := by
  obtain ⟨hmap, hverts, hinds, hmids⟩ :=
    weldTriangles_spec mesh hF (pipelineTris mesh)
  have hps : resolvedPairs mesh (pipelineTris mesh) =
      (pipelineTris mesh).flatMap fun tri =>
        (cornerOffsets tri).map (resolveCorner mesh) := by
    rw [resolvedPairs, cornerReads_full _ _ (pipelineTris_cov mesh hcov),
      List.map_flatMap]
  have hgen : ∀ g : Nat × Nat → Nat,
      (resolvedPairs mesh (pipelineTris mesh)).map g =
        (pipelineTris mesh).flatMap fun tri =>
          ((cornerOffsets tri).map (resolveCorner mesh)).map g := by
    intro g
    rw [hps, List.map_flatMap]
  have hindsfl : (weldTriangles mesh (pipelineTris mesh)).indices =
      (pipelineTris mesh).flatMap fun tri =>
        ((cornerOffsets tri).map (resolveCorner mesh)).map fun p =>
          idxOf p (firstOccs (resolvedPairs mesh (pipelineTris mesh))) := by
    rw [hinds]
    exact hgen _
  have hchunklen : ∀ tri : Triangle,
      (((cornerOffsets tri).map (resolveCorner mesh)).map fun p =>
        idxOf p (firstOccs (resolvedPairs mesh
          (pipelineTris mesh)))).length = 3 := by
    intro tri
    simp [cornerOffsets]
  rw [getProcessedMeshData_main mesh h1 h2 h3]
  refine ⟨hmids, ?_, ?_⟩
  · show (weldTriangles mesh (pipelineTris mesh)).indices.length =
      3 * (weldTriangles mesh (pipelineTris mesh)).materialIds.length
    rw [hindsfl, hmids, flatMap_length_3 hchunklen, List.length_map]
  · intro t ht
    have ht2 : t < (pipelineTris mesh).length := by
      have h : t <
          (weldTriangles mesh (pipelineTris mesh)).materialIds.length := ht
      rw [hmids, List.length_map] at h
      exact h
    constructor
    · show (weldTriangles mesh (pipelineTris mesh)).materialIds.getD t 0 = _
      rw [hmids]
      exact getD_map_matId ht2
    · intro c hc
      show (weldTriangles mesh (pipelineTris mesh)).indices.getD
        (3 * t + c) 0 = _
      rw [hindsfl, flatMap_chunk3_getD hchunklen _ t c ht2 hc,
        chunk_getD mesh _ _ c hc]

theorem c3_alignment_witness :
    wMesh.features.length ≤ 2 ^ 32 ∧
    wMesh.polygons.vertex_indices ≠ [] ∧
    wMesh.materials ≠ [] ∧
    wMesh.polygons.vertex_indices.length =
      wMesh.polygons.feature_indices.length ∧
    3 * wMesh.polygons.material_indices.length ≤
      wMesh.polygons.vertex_indices.length ∧
    (getProcessedMeshData wMesh).indices.length =
      3 * (getProcessedMeshData wMesh).materialIds.length :=
  ⟨by decide, by decide, by decide, by decide, by decide,
    (c3_alignment wMesh (by decide) (by decide) (by decide) (by decide)
      (by decide)).2.1⟩

/-- C7: welding is keyed on the resolved pair.  (i) two processed corners
with identical resolved `(positionIndex, attributeIndex)` pairs produce the
same `indices` entry; (ii) every entry is the first-appearance ordinal of
its pair; (iii) the vertex buffer holds exactly one 8-float record per
distinct pair, in first-appearance order — a corner with an unseen pair
appends exactly one record; (iv) every vertex record is 8 floats; (v) the
first-appearance list is duplicate-free (each pair is cached once); (vi) the
cache maps each distinct pair's composite key to its ordinal. -/
theorem c7_vertex_welding (mesh : Mesh)
    (hF : mesh.features.length ≤ 2 ^ 32) :
    (∀ n m : Nat,
      n < (resolvedPairs mesh (pipelineTris mesh)).length →
      m < (resolvedPairs mesh (pipelineTris mesh)).length →
      (resolvedPairs mesh (pipelineTris mesh)).getD n (0, 0) =
        (resolvedPairs mesh (pipelineTris mesh)).getD m (0, 0) →
      (weldTriangles mesh (pipelineTris mesh)).indices.getD n 0 =
        (weldTriangles mesh (pipelineTris mesh)).indices.getD m 0) ∧
    (weldTriangles mesh (pipelineTris mesh)).indices =
      ((resolvedPairs mesh (pipelineTris mesh)).map fun p =>
        idxOf p (firstOccs (resolvedPairs mesh (pipelineTris mesh)))) ∧
    (weldTriangles mesh (pipelineTris mesh)).vertices =
      ((firstOccs (resolvedPairs mesh (pipelineTris mesh))).flatMap fun p =>
        vertexData mesh p.1 p.2) ∧
    (∀ vi fi : Nat, (vertexData mesh vi fi).length = 8) ∧
    (firstOccs (resolvedPairs mesh (pipelineTris mesh))).Nodup ∧
    (weldTriangles mesh (pipelineTris mesh)).vertexMap =
      keyEntries 0 (firstOccs (resolvedPairs mesh (pipelineTris mesh))) := by
  obtain ⟨hmap, hverts, hinds, hmids⟩ :=
    weldTriangles_spec mesh hF (pipelineTris mesh)
  refine ⟨?_, hinds, hverts, vertexData_length mesh,
    nodup_firstOccs _, hmap⟩
  intro n m hn hm heq
  rw [hinds, getD_map_pair hn, getD_map_pair hm, heq]

theorem c7_vertex_welding_witness :
    wMesh.features.length ≤ 2 ^ 32 ∧
    0 < (resolvedPairs wMesh (pipelineTris wMesh)).length ∧
    1 < (resolvedPairs wMesh (pipelineTris wMesh)).length ∧
    (resolvedPairs wMesh (pipelineTris wMesh)).getD 0 (0, 0) =
      (resolvedPairs wMesh (pipelineTris wMesh)).getD 1 (0, 0) ∧
    (weldTriangles wMesh (pipelineTris wMesh)).indices.getD 0 0 =
      (weldTriangles wMesh (pipelineTris wMesh)).indices.getD 1 0 :=
  ⟨by decide, by decide, by decide, by decide,
    (c7_vertex_welding wMesh (by decide)).1 0 1 (by decide) (by decide)
      (by decide)⟩


/-! ### Except-instrumented pipeline (safety)

A second copy of `getProcessedMeshData` in which every single indexing
operation is strict (`idxE` errors instead of clamping).  Proving it returns
`Except.ok` of the plain model on *every* input shows each access the C++
code performs is guarded: its out-of-bounds branch is unreachable. -/

/-- Strict indexing: errors instead of clamping when out of bounds. -/
def idxE {α : Type} (l : List α) (i : Nat) : Except String α :=
  match l[i]? with
  | some a => Except.ok a
  | none => Except.error "index out of bounds"

theorem idxE_ok {α : Type} (d : α) {l : List α} {i : Nat}
    (h : i < l.length) : idxE l i = Except.ok (l.getD i d) := by
  rw [idxE, List.getElem?_eq_getElem h, List.getD_eq_getElem?_getD,
    List.getElem?_eq_getElem h]
  rfl

theorem bind_ok_eq {α β : Type} (a : α) (f : α → Except String β) :
    (Except.ok a >>= f) = f a := rfl

/-- Generic transfer: a monadic fold whose body always succeeds (preserving
an invariant) equals `ok` of the pure fold. -/
theorem foldlM_ok {α β : Type} (f : β → α → β)
    (g : β → α → Except String β) (P : β → Prop) :
    ∀ (l : List α) (init : β), P init →
      (∀ b a, a ∈ l → P b → g b a = Except.ok (f b a) ∧ P (f b a)) →
      l.foldlM g init = Except.ok (l.foldl f init) ∧
        P (l.foldl f init) := by
  intro l
  induction l with
  | nil => intro init hP _; exact ⟨rfl, hP⟩
  | cons a l ih =>
    intro init hP hstep
    obtain ⟨hg, hP2⟩ := hstep init a (List.mem_cons_self a l) hP
    rw [List.foldlM_cons, hg, bind_ok_eq, List.foldl_cons]
    exact ih (f init a) hP2 fun b x hx hPb =>
      hstep b x (List.mem_cons_of_mem a hx) hPb

/-- `dedupBody` with strict reads (`mat[i]`, `mat[r]`, `materials[i]`,
`materials[r]`, in the source's order of use). -/
def dedupBodyE (ms : List Material) (i : Nat) (mat : List Nat) (r : Nat) :
    Except String (List Nat) := do
  let mi ← idxE mat i
  let mr ← idxE mat r
  if mi = mr then pure mat
  else
    let a ← idxE ms i
    let b ← idxE ms r
    if isVisuallySame a b then pure (mat.set r mi) else pure mat

def dedupInnerE (ms : List Material) (mat : List Nat) (i : Nat) :
    Except String (List Nat) :=
  (List.range' (i + 1) (ms.length - (i + 1))).foldlM
    (fun mat r => dedupBodyE ms i mat r) mat

def dedupTableE (ms : List Material) : Except String (List Nat) :=
  (List.range ms.length).foldlM (fun mat i => dedupInnerE ms mat i)
    (List.range ms.length)

theorem dedupBodyE_ok {ms : List Material} {i : Nat} {mat : List Nat}
    {r : Nat} (hi : i < ms.length) (hr : r < ms.length)
    (hmi : i < mat.length) (hmr : r < mat.length) :
    dedupBodyE ms i mat r = Except.ok (dedupBody ms i mat r) := by
  rw [dedupBodyE, dedupBody, idxE_ok 0 hmi, idxE_ok 0 hmr]
  simp only [bind_ok_eq]
  split
  · rfl
  · rw [idxE_ok default hi, idxE_ok default hr]
    simp only [bind_ok_eq]
    split
    · rfl
    · rfl

theorem dedupInnerE_ok {ms : List Material} {mat : List Nat} {i : Nat}
    (hi : i < ms.length) (hmat : mat.length = ms.length) :
    dedupInnerE ms mat i = Except.ok (dedupInner ms mat i) ∧
      (dedupInner ms mat i).length = ms.length := by
  have h := foldlM_ok (dedupBody ms i) (fun mat r => dedupBodyE ms i mat r)
    (fun mat' => mat'.length = ms.length)
    (List.range' (i + 1) (ms.length - (i + 1))) mat hmat ?_
  · exact h
  · intro b r hrmem hPb
    have hr : r < ms.length := by
      obtain ⟨h1, h2⟩ := List.mem_range'_1.mp hrmem
      omega
    refine ⟨dedupBodyE_ok hi hr (by omega) (by omega), ?_⟩
    show (dedupBody ms i b r).length = ms.length
    rw [length_dedupBody]
    exact hPb

theorem dedupTableE_ok (ms : List Material) :
    dedupTableE ms = Except.ok (dedupTable ms) := by
  have h := foldlM_ok (dedupInner ms) (fun mat i => dedupInnerE ms mat i)
    (fun mat' => mat'.length = ms.length)
    (List.range ms.length) (List.range ms.length) (by simp) ?_
  · exact h.1
  · intro b i himem hPb
    have hi : i < ms.length := List.mem_range.mp himem
    obtain ⟨h1, h2⟩ := dedupInnerE_ok hi hPb
    exact ⟨h1, h2⟩

/-- `remapStep` with strict reads (`mat[i]`, then `materials[dedupIdx]` when
inserting). -/
def remapStepE (ms : List Material) (mat : List Nat)
    (st : List (Nat × Nat) × List MaterialData) (i : Nat) :
    Except String (List (Nat × Nat) × List MaterialData) := do
  let d ← idxE mat i
  match st.1.lookup d with
  | some _ => pure st
  | none => do
    let m ← idxE ms d
    pure (st.1 ++ [(d, st.2.length)], st.2 ++ [toMaterialData m])

def buildRemapE (ms : List Material) (mat : List Nat) :
    Except String (List (Nat × Nat) × List MaterialData) :=
  (List.range ms.length).foldlM (remapStepE ms mat) ([], [])

theorem remapStepE_ok {ms : List Material} {mat : List Nat}
    {st : List (Nat × Nat) × List MaterialData} {i : Nat}
    (hi : i < mat.length) (hd : mat.getD i 0 < ms.length) :
    remapStepE ms mat st i = Except.ok (remapStep ms mat st i) := by
  rw [remapStepE, remapStep, idxE_ok 0 hi]
  simp only [bind_ok_eq]
  cases hl : st.1.lookup (mat.getD i 0) with
  | some v => rfl
  | none =>
    rw [idxE_ok default hd]
    rfl

theorem buildRemapE_ok (ms : List Material) (mat : List Nat)
    (hmat : mat.length = ms.length)
    (hle : ∀ i, i < ms.length → mat.getD i 0 ≤ i) :
    buildRemapE ms mat = Except.ok (buildRemap ms mat) := by
  have h := foldlM_ok (remapStep ms mat) (remapStepE ms mat)
    (fun _ => True) (List.range ms.length) ([], []) trivial ?_
  · exact h.1
  · intro b i himem _
    have hi : i < ms.length := List.mem_range.mp himem
    refine ⟨remapStepE_ok (by omega) ?_, trivial⟩
    have := hle i hi
    omega


/-- `collectTriangles`'s loop with strict reads (`mid[i]`, then `mat[omi]`
under the guard, then the remap lookup, which must hit). -/
def collectTrianglesE (mid mat : List Nat) (remap : List (Nat × Nat)) :
    Except String (List Triangle) :=
  (List.range mid.length).foldlM (fun acc i => do
    let omi ← idxE mid i
    if omi < mat.length then do
      let dm ← idxE mat omi
      match remap.lookup dm with
      | some r => pure (acc ++ [⟨i * 3, r⟩])
      | none => Except.error "material remap key missing"
    else pure acc) []

theorem foldl_collect_eq_filterMap (mid mat : List Nat)
    (remap : List (Nat × Nat)) :
    ∀ (l : List Nat) (acc : List Triangle),
      l.foldl (fun acc i =>
        if mid.getD i 0 < mat.length then
          acc ++ [⟨i * 3,
            (remap.lookup (mat.getD (mid.getD i 0) 0)).getD 0⟩]
        else acc) acc =
      acc ++ l.filterMap fun i =>
        if mid.getD i 0 < mat.length then
          some ⟨i * 3, (remap.lookup (mat.getD (mid.getD i 0) 0)).getD 0⟩
        else none := by
  intro l
  induction l with
  | nil => intro acc; simp
  | cons i l ih =>
    intro acc
    rw [List.foldl_cons, List.filterMap_cons]
    by_cases h : mid.getD i 0 < mat.length
    · rw [if_pos h, ih, if_pos h]
      simp
    · rw [if_neg h, ih, if_neg h]

theorem collectTrianglesE_ok (mid mat : List Nat)
    (remap : List (Nat × Nat))
    (hpresent : ∀ i, i < mid.length → mid.getD i 0 < mat.length →
      ∃ r, remap.lookup (mat.getD (mid.getD i 0) 0) = some r) :
    collectTrianglesE mid mat remap =
      Except.ok (collectTriangles mid mat remap) := by
  have h := foldlM_ok
    (fun acc i =>
      if mid.getD i 0 < mat.length then
        acc ++ [Triangle.mk (i * 3)
          ((remap.lookup (mat.getD (mid.getD i 0) 0)).getD 0)]
      else acc)
    (fun acc i => do
      let omi ← idxE mid i
      if omi < mat.length then do
        let dm ← idxE mat omi
        match remap.lookup dm with
        | some r => pure (acc ++ [Triangle.mk (i * 3) r])
        | none => Except.error "material remap key missing"
      else pure acc)
    (fun _ => True) (List.range mid.length) [] trivial ?_
  · rw [collectTrianglesE, h.1, collectTriangles,
      foldl_collect_eq_filterMap mid mat remap (List.range mid.length) []]
    rw [List.nil_append]
  · intro b i himem _
    have hi : i < mid.length := List.mem_range.mp himem
    refine ⟨?_, trivial⟩
    simp only []
    rw [idxE_ok 0 hi, bind_ok_eq]
    by_cases h : mid.getD i 0 < mat.length
    · rw [if_pos h, if_pos h, idxE_ok 0 h, bind_ok_eq]
      obtain ⟨r, hr⟩ := hpresent i hi h
      rw [hr]
      rfl
    · rw [if_neg h, if_neg h]
      rfl

theorem pure_bind_eq {α β : Type} (a : α) (f : α → Except String β) :
    ((pure a : Except String α) >>= f) = f a := rfl

/-- Position part of a new vertex record, with a strict read under the
source's write-time guard. -/
def vertexDataPosE (mesh : Mesh) (vi : Nat) : Except String (List Int) :=
  if vi < mesh.vertices.length then do
    let v ← idxE mesh.vertices vi
    pure [v.x, v.y, v.z]
  else pure ([0, 0, 0] : List Int)

/-- Attribute part of a new vertex record, with a strict read under the
source's write-time guard. -/
def vertexDataFeatE (mesh : Mesh) (fi : Nat) : Except String (List Int) :=
  if fi < mesh.features.length then do
    let f ← idxE mesh.features fi
    pure [f.normal.x, f.normal.y, f.normal.z, f.texture.x, f.texture.y]
  else pure ([0, 0, 1, 0, 0] : List Int)

/-- `vertexData` with strict reads. -/
def vertexDataE (mesh : Mesh) (vi fi : Nat) : Except String (List Int) := do
  let posPart ← vertexDataPosE mesh vi
  let featPart ← vertexDataFeatE mesh fi
  pure (posPart ++ featPart)

theorem vertexDataPosE_ok (mesh : Mesh) (vi : Nat) :
    vertexDataPosE mesh vi = Except.ok
      (if vi < mesh.vertices.length then
        [(mesh.vertices.getD vi default).x,
         (mesh.vertices.getD vi default).y,
         (mesh.vertices.getD vi default).z]
      else [0, 0, 0]) := by
  rw [vertexDataPosE]
  by_cases h : vi < mesh.vertices.length
  · rw [if_pos h, if_pos h, idxE_ok default h]
    rfl
  · rw [if_neg h, if_neg h]
    rfl

theorem vertexDataFeatE_ok (mesh : Mesh) (fi : Nat) :
    vertexDataFeatE mesh fi = Except.ok
      (if fi < mesh.features.length then
        [(mesh.features.getD fi default).normal.x,
         (mesh.features.getD fi default).normal.y,
         (mesh.features.getD fi default).normal.z,
         (mesh.features.getD fi default).texture.x,
         (mesh.features.getD fi default).texture.y]
      else [0, 0, 1, 0, 0]) := by
  rw [vertexDataFeatE]
  by_cases h : fi < mesh.features.length
  · rw [if_pos h, if_pos h, idxE_ok default h]
    rfl
  · rw [if_neg h, if_neg h]
    rfl

theorem vertexDataE_ok (mesh : Mesh) (vi fi : Nat) :
    vertexDataE mesh vi fi = Except.ok (vertexData mesh vi fi) := by
  rw [vertexDataE]
  simp only [vertexDataPosE_ok, vertexDataFeatE_ok, bind_ok_eq]
  rfl

/-- `emitCorner` with strict stream reads: `ibo[...]` (guarded in the
source) and `feat[...]` (unguarded in the source — safe only because of the
equal-length early return). -/
def emitCornerE (mesh : Mesh) (st : WeldState) (idx : Nat) :
    Except String WeldState := do
  let vi0 ← idxE mesh.polygons.vertex_indices idx
  let fi0 ← idxE mesh.polygons.feature_indices idx
  match st.vertexMap.lookup (mkUInt64
      (resolvePair mesh.vertices.length mesh.features.length vi0 fi0).1
      (resolvePair mesh.vertices.length mesh.features.length vi0 fi0).2) with
  | some existingIdx => pure { st with indices := st.indices ++ [existingIdx] }
  | none => do
    let data ← vertexDataE mesh
      (resolvePair mesh.vertices.length mesh.features.length vi0 fi0).1
      (resolvePair mesh.vertices.length mesh.features.length vi0 fi0).2
    pure { st with
        vertexMap := st.vertexMap ++ [(mkUInt64
          (resolvePair mesh.vertices.length mesh.features.length vi0 fi0).1
          (resolvePair mesh.vertices.length mesh.features.length vi0 fi0).2,
          st.vertices.length / 8)],
        indices := st.indices ++ [st.vertices.length / 8],
        vertices := st.vertices ++ data }

theorem emitCornerE_ok {mesh : Mesh} {st : WeldState} {idx : Nat}
    (hv : idx < mesh.polygons.vertex_indices.length)
    (hf : idx < mesh.polygons.feature_indices.length) :
    emitCornerE mesh st idx = Except.ok (emitCorner mesh st idx) := by
  rw [emitCornerE, emitCorner, resolveCorner, idxE_ok 0 hv, bind_ok_eq,
    idxE_ok 0 hf, bind_ok_eq]
  split
  · rfl
  · rw [vertexDataE_ok, bind_ok_eq]
    rfl

def processCornerE (mesh : Mesh) (primId : Nat) (st : WeldState)
    (c : Nat) : Except String WeldState :=
  if primId + c ≥ mesh.polygons.vertex_indices.length then pure st
  else emitCornerE mesh st (primId + c)

theorem processCornerE_ok {mesh : Mesh} {primId : Nat} {st : WeldState}
    {c : Nat}
    (h3 : mesh.polygons.vertex_indices.length =
      mesh.polygons.feature_indices.length) :
    processCornerE mesh primId st c =
      Except.ok (processCorner mesh primId st c) := by
  rw [processCornerE, processCorner]
  split
  · rfl
  · rename_i h
    exact emitCornerE_ok (by omega) (by omega)

def processTriangleE (mesh : Mesh) (st : WeldState) (tri : Triangle) :
    Except String WeldState :=
  [0, 1, 2].foldlM (processCornerE mesh tri.primId)
    { st with materialIds := st.materialIds ++ [tri.matId] }

theorem processTriangleE_ok {mesh : Mesh} {st : WeldState}
    {tri : Triangle}
    (h3 : mesh.polygons.vertex_indices.length =
      mesh.polygons.feature_indices.length) :
    processTriangleE mesh st tri =
      Except.ok (processTriangle mesh st tri) := by
  have h := foldlM_ok (processCorner mesh tri.primId)
    (processCornerE mesh tri.primId) (fun _ => True) [0, 1, 2]
    { st with materialIds := st.materialIds ++ [tri.matId] } trivial
    (fun b a _ _ => ⟨processCornerE_ok h3, trivial⟩)
  exact h.1

def weldTrianglesE (mesh : Mesh) (tris : List Triangle) :
    Except String WeldState :=
  tris.foldlM (processTriangleE mesh) {}

theorem weldTrianglesE_ok (mesh : Mesh) (tris : List Triangle)
    (h3 : mesh.polygons.vertex_indices.length =
      mesh.polygons.feature_indices.length) :
    weldTrianglesE mesh tris = Except.ok (weldTriangles mesh tris) := by
  have h := foldlM_ok (processTriangle mesh) (processTriangleE mesh)
    (fun _ => True) tris {} trivial
    (fun b a _ _ => ⟨processTriangleE_ok h3, trivial⟩)
  exact h.1

/-- `getProcessedMeshData` with every indexing operation strict. -/
def getProcessedMeshDataE (mesh : Mesh) :
    Except String ProcessedMeshData :=
  if mesh.polygons.vertex_indices.isEmpty || mesh.materials.isEmpty then
    pure {}
  else if mesh.polygons.vertex_indices.length ≠
      mesh.polygons.feature_indices.length then
    pure {}
  else do
    let mat ← dedupTableE mesh.materials
    let remapOut ← buildRemapE mesh.materials mat
    let trisRaw ← collectTrianglesE mesh.polygons.material_indices mat
      remapOut.1
    let st ← weldTrianglesE mesh (sortTriangles trisRaw)
    pure { vertices := st.vertices, indices := st.indices,
           materialIds := st.materialIds, materials := remapOut.2 }

theorem emitCorner_vertices_mod (mesh : Mesh) (st : WeldState)
    (idx : Nat) :
    (emitCorner mesh st idx).vertices.length % 8 =
      st.vertices.length % 8 := by
  unfold emitCorner
  split
  · rfl
  · show (st.vertices ++ _).length % 8 = _
    rw [List.length_append, vertexData_length]
    omega

theorem processCorner_vertices_mod (mesh : Mesh) (primId : Nat)
    (st : WeldState) (c : Nat) :
    (processCorner mesh primId st c).vertices.length % 8 =
      st.vertices.length % 8 := by
  unfold processCorner
  split
  · rfl
  · exact emitCorner_vertices_mod mesh st (primId + c)

theorem processTriangle_vertices_mod (mesh : Mesh) (st : WeldState)
    (tri : Triangle) :
    (processTriangle mesh st tri).vertices.length % 8 =
      st.vertices.length % 8 := by
  rw [processTriangle]
  simp only [List.foldl_cons, List.foldl_nil, processCorner_vertices_mod]

theorem weld_vertices_mod (mesh : Mesh) :
    ∀ (tris : List Triangle) (st : WeldState),
      (tris.foldl (processTriangle mesh) st).vertices.length % 8 =
        st.vertices.length % 8 := by
  intro tris
  induction tris with
  | nil => intro st; rfl
  | cons t tris ih =>
    intro st
    rw [List.foldl_cons, ih, processTriangle_vertices_mod]

/-- C8: on every input — including corner indices beyond the stream
lengths, position indices beyond the position count and attribute indices
beyond the attribute count — the strictly-checked pipeline completes with
`Except.ok` and agrees with the plain model, so no indexing operation ever
reaches its out-of-bounds branch; and the result is well-formed: its vertex
buffer is a whole number of 8-float records. -/
theorem c8_no_out_of_bounds (mesh : Mesh) :
    getProcessedMeshDataE mesh = Except.ok (getProcessedMeshData mesh) ∧
    (getProcessedMeshData mesh).vertices.length % 8 = 0 := by
  constructor
  · rw [getProcessedMeshDataE, getProcessedMeshData]
    split
    · rfl
    · split
      · rfl
      · rename_i hne hlen
        have hpres : ∀ i, i < mesh.polygons.material_indices.length →
            mesh.polygons.material_indices.getD i 0 <
              (dedupTable mesh.materials).length →
            ∃ r, (buildRemap mesh.materials
                (dedupTable mesh.materials)).1.lookup
              ((dedupTable mesh.materials).getD
                (mesh.polygons.material_indices.getD i 0) 0) = some r := by
          intro i hi hlt
          have hlen2 : (dedupTable mesh.materials).length =
              mesh.materials.length := dedupTable_length mesh.materials
          have hmid : mesh.polygons.material_indices.getD i 0 <
              mesh.materials.length := by omega
          have hrep : (dedupTable mesh.materials).getD
              ((dedupTable mesh.materials).getD
                (mesh.polygons.material_indices.getD i 0) 0) 0 =
              (dedupTable mesh.materials).getD
                (mesh.polygons.material_indices.getD i 0) 0 :=
            dedupTable_idem mesh.materials hmid
          have hdlt : (dedupTable mesh.materials).getD
              (mesh.polygons.material_indices.getD i 0) 0 <
                mesh.materials.length := by
            rw [dedupTable_getD mesh.materials _ hmid]
            exact classRep_lt hmid
          refine ⟨repIdx (dedupTable mesh.materials)
            ((dedupTable mesh.materials).getD
              (mesh.polygons.material_indices.getD i 0) 0), ?_⟩
          rw [buildRemap_lookup mesh.materials (dedupTable mesh.materials)
            (dedupTable_hle mesh.materials)
            (dedupTable_hid mesh.materials), if_pos ⟨hrep, hdlt⟩]
        rw [dedupTableE_ok, bind_ok_eq,
          buildRemapE_ok mesh.materials (dedupTable mesh.materials)
            (dedupTable_length mesh.materials)
            (dedupTable_hle mesh.materials), bind_ok_eq,
          collectTrianglesE_ok mesh.polygons.material_indices
            (dedupTable mesh.materials)
            (buildRemap mesh.materials (dedupTable mesh.materials)).1 hpres,
          bind_ok_eq,
          weldTrianglesE_ok mesh _ (by omega), bind_ok_eq]
        rfl
  · by_cases hcase : mesh.polygons.vertex_indices = [] ∨
        mesh.materials = [] ∨
        mesh.polygons.vertex_indices.length ≠
          mesh.polygons.feature_indices.length
    · rw [getProcessedMeshData_early mesh hcase]
      rfl
    · push_neg at hcase
      obtain ⟨h1, h2, h3⟩ := hcase
      rw [getProcessedMeshData_main mesh h1 h2 h3]
      show (weldTriangles mesh (pipelineTris mesh)).vertices.length % 8 = 0
      rw [weldTriangles, weld_vertices_mod]
      rfl

end ZenKit
